import Mathlib

/-!
Verification development for the tree-rebuild engine of this repository.

The embedding covers:
* `src/builder.py`: the `StackSupportNode` builder contexts (push, place,
  construct, get_pos, child/ancestor/reverse iterators) and the two
  iterative stack-based walks `rebuild` and `capture`;
* `src/construction_database.py`: the doubly linked action log
  (`DoubleLinkedList`, `BuildNode.execute/edit/revert` and the three
  action entry kinds).

Python `ast` nodes are modelled as `PyVal`: a node carries a type tag
(the class name) and an ordered list of fields, each field holding
either a single value or an ordered list of values.  Literal leaf
values (strings, ints, bools, `None`) are `Lit`.  Python exceptions are
the `PyErr` error type and fallible operations return `Except PyErr`.
-/

set_option maxRecDepth 4096

/-- Literal (non-`ast.AST`) field values: strings, ints, bools and `None`. -/
inductive Lit where
  | str : String → Lit
  | int : Int → Lit
  | boolLit : Bool → Lit
  | noneLit : Lit
deriving DecidableEq, Repr

mutual
/-- A Python value stored in an ast field: a literal or an ast node.
An ast node is its class name (the type tag used by the registry)
together with its ordered fields, as `ast.iter_fields` exposes them. -/
inductive PyVal : Type where
  | lit : Lit → PyVal
  | node : String → FieldList → PyVal
deriving DecidableEq, Repr
/-- The ordered named fields of an ast node.  `scons` is a field holding a
single value, `lcons` a field holding an ordered list of values. -/
inductive FieldList : Type where
  | nil : FieldList
  | scons : String → PyVal → FieldList → FieldList
  | lcons : String → ValList → FieldList → FieldList
deriving DecidableEq, Repr
/-- An ordered list of values (the content of a list-arity field). -/
inductive ValList : Type where
  | nil : ValList
  | cons : PyVal → ValList → ValList
deriving DecidableEq, Repr
end

/-- Python exceptions raised by the engine. -/
inductive PyErr where
  | keyError : String → PyErr
  | attributeError : String → PyErr
  | assertionError : String → PyErr
  | valueError : String → PyErr
  | typeError : String → PyErr
  | indexError : String → PyErr
  | notImplementedError : PyErr
deriving DecidableEq, Repr

/-- Arity of a declared field: a single-value slot or a list slot. -/
inductive Arity where
  | single : Arity
  | many : Arity
deriving DecidableEq, Repr

/-- The declared field names and arities of one node class, in field order
(the `fields` tuple of the generated `StackSupportNode` subclass). -/
abbrev Schema : Type := List (String × Arity)

/-- `StackSupportNode.registry`: maps an ast class name to the schema of the
generated builder subclass responsible for it, `none` when unregistered. -/
abbrev Registry : Type := String → Option Schema

mutual
def sizeV : PyVal → Nat
  | .lit _ => 1
  | .node _ fl => 1 + sizeFL fl
def sizeFL : FieldList → Nat
  | .nil => 0
  | .scons _ v r => sizeV v + sizeFL r
  | .lcons _ vs r => sizeVL vs + sizeFL r
def sizeVL : ValList → Nat
  | .nil => 0
  | .cons v r => sizeV v + sizeVL r
end

def ValList.toList : ValList → List PyVal
  | .nil => []
  | .cons v r => v :: ValList.toList r

def ValList.append : ValList → PyVal → ValList
  | .nil, v => .cons v .nil
  | .cons a r, v => .cons a (ValList.append r v)

/-- `StackSupportNode`: one in-progress builder context.  `tag` is the node
class it builds, `node` the original ast node being mirrored (`self._node`;
the root sentinel holds Python `None`, i.e. `Lit.noneLit`), `slots` the
per-field accumulation attributes set up by the generated `__init__`
(list fields start `[]`, single fields start `None`), and `parent` the
enclosing context. -/
inductive StackSupportNode : Type where
  | mk (tag : String) (node : PyVal) (slots : FieldList) (parent : Option StackSupportNode) :
      StackSupportNode

def StackSupportNode.decEq : (a b : StackSupportNode) → Decidable (a = b)
  | .mk t1 n1 s1 p1, .mk t2 n2 s2 p2 => by
    have dp : Decidable (p1 = p2) := by
      match p1, p2 with
      | none, none => exact isTrue rfl
      | none, some _ => exact isFalse (by simp)
      | some _, none => exact isFalse (by simp)
      | some x, some y =>
        match StackSupportNode.decEq x y with
        | isTrue h => exact isTrue (by rw [h])
        | isFalse h => exact isFalse (by simpa using h)
    haveI := dp
    exact decidable_of_iff (t1 = t2 ∧ n1 = n2 ∧ s1 = s2 ∧ p1 = p2)
      (by simp [StackSupportNode.mk.injEq])

instance : DecidableEq StackSupportNode := StackSupportNode.decEq

instance {e a : Type} [DecidableEq e] [DecidableEq a] : DecidableEq (Except e a)
  | .ok x, .ok y => decidable_of_iff (x = y) (by simp)
  | .ok _, .error _ => isFalse (by simp)
  | .error _, .ok _ => isFalse (by simp)
  | .error x, .error y => decidable_of_iff (x = y) (by simp)

def StackSupportNode.tag : StackSupportNode → String
  | .mk t _ _ _ => t

def StackSupportNode.node : StackSupportNode → PyVal
  | .mk _ n _ _ => n

def StackSupportNode.slots : StackSupportNode → FieldList
  | .mk _ _ s _ => s

def StackSupportNode.parent : StackSupportNode → Option StackSupportNode
  | .mk _ _ _ p => p

/-- The root sentinel `StackSupportNode()`: no node, no parent, no slots. -/
def StackSupportNode.sentinel : StackSupportNode :=
  .mk "" (.lit .noneLit) .nil none

/-- The generated `__init__` of each subclass: list-arity fields start as
`[]`, single-arity fields start as `None`, in declared field order. -/
def initSlots : Schema → FieldList
  | [] => .nil
  | (n, .single) :: r => .scons n (.lit .noneLit) (initSlots r)
  | (n, .many) :: r => .lcons n .nil (initSlots r)

/-- `StackSupportNode.push`: look the child's class up in the registry and
build the matching subclass context `subclass(node, self)`.  An
unregistered class (any literal, or a node class missing from the
registry) raises `KeyError` from the registry dictionary lookup. -/
def StackSupportNode.push (self : StackSupportNode) (reg : Registry) (v : PyVal) :
    Except PyErr StackSupportNode :=
  match v with
  | .lit _ => .error (.keyError "class not registered")
  | .node t fl =>
    match reg t with
    | none => .error (.keyError t)
    | some sch => .ok (.mk t (.node t fl) (initSlots sch) (some self))

/-- Slot update behind `StackSupportNode.place`: a list attribute is
appended to, a single attribute is set, after asserting it is still
`None`; a field name that is no accumulation attribute raises from the
`getattr` lookup (only the per-field accumulation attributes of the
generated `__init__` are modelled). -/
def placeSlots (slots : FieldList) (fieldname : String) (value : PyVal) :
    Except PyErr FieldList :=
  match slots with
  | .nil => .error (.attributeError fieldname)
  | .scons n cur rest =>
    if n = fieldname then
      if cur = .lit .noneLit then .ok (.scons n value rest)
      else .error (.assertionError ("Attribute of name " ++ fieldname ++ " already set"))
    else
      match placeSlots rest fieldname value with
      | .ok r => .ok (.scons n cur r)
      | .error e => .error e
  | .lcons n vs rest =>
    if n = fieldname then .ok (.lcons n (vs.append value) rest)
    else
      match placeSlots rest fieldname value with
      | .ok r => .ok (.lcons n vs r)
      | .error e => .error e

/-- `StackSupportNode.place(fieldname, value)`: "Lists are appended to.
Raw slots are replaced" after the `is None` assertion. -/
def StackSupportNode.place (self : StackSupportNode) (fieldname : String) (value : PyVal) :
    Except PyErr StackSupportNode :=
  match placeSlots self.slots fieldname value with
  | .ok s => .ok (.mk self.tag self.node s self.parent)
  | .error e => .error e

/-- `construct` of a generated subclass: build a fresh node of this
context's class from the accumulation attributes, in field order.
`pop` is an alias for `construct` in the source. -/
def StackSupportNode.construct (self : StackSupportNode) : PyVal :=
  .node self.tag self.slots

mutual
/-- `StackSupportNode.get_child_iterator` on the fields of the original
node: `ast.iter_fields` order, with list fields flattened element by
element, each paired with its field name. -/
def childIterFL : FieldList → List (String × PyVal)
  | .nil => []
  | .scons n v r => (n, v) :: childIterFL r
  | .lcons n vs r => childIterVL n vs ++ childIterFL r
def childIterVL (n : String) : ValList → List (String × PyVal)
  | .nil => []
  | .cons v r => (n, v) :: childIterVL n r
end

/-- The child iterator of a whole value; a literal has no ast fields. -/
def childIterV : PyVal → List (String × PyVal)
  | .lit _ => []
  | .node _ fl => childIterFL fl

/-- A view of one accumulation attribute, used by the `isinstance(..., list)`
tests in `place` and `get_pos`. -/
inductive SlotView where
  | singleSlot : PyVal → SlotView
  | listSlot : ValList → SlotView
deriving DecidableEq, Repr

/-- `getattr(self, fieldname)` on the accumulation attributes. -/
def slotFind : FieldList → String → Option SlotView
  | .nil, _ => none
  | .scons n v r, fn => if n = fn then some (.singleSlot v) else slotFind r fn
  | .lcons n vs r, fn => if n = fn then some (.listSlot vs) else slotFind r fn

/-- Index of the first occurrence of a value in a list, `list.index`:
raises `ValueError` (here `none`) when the value is absent. -/
def indexOfVL (vs : ValList) (target : PyVal) : Option Nat :=
  match vs with
  | .nil => none
  | .cons v r => if v = target then some 0 else (indexOfVL r target).map (· + 1)

/-- `StackSupportNode.get_pos(target_child)`: scan the original node's child
iterator for the first field whose value is the target (`target_child is
child`), raising `KeyError("Child not on node")` when absent; then read the
context's own accumulation attribute of that name: a list attribute answers
`(field, list.index(child))` (raising `ValueError` when the accumulated
list does not hold the child), a single attribute answers `(field, None)`. -/
def StackSupportNode.get_pos (self : StackSupportNode) (target : PyVal) :
    Except PyErr (String × Option Nat) :=
  match (childIterV self.node).find? (fun p => p.2 = target) with
  | none => .error (.keyError "Child not on node")
  | some (fn, _) =>
    match slotFind self.slots fn with
    | none => .error (.attributeError fn)
    | some (.singleSlot _) => .ok (fn, none)
    | some (.listSlot vs) =>
      match indexOfVL vs target with
      | none => .error (.valueError "is not in list")
      | some i => .ok (fn, some i)

/-- `get_ancestor_iterator`: self, then the parent chain up to the root. -/
def StackSupportNode.get_ancestor_iterator : StackSupportNode → List StackSupportNode
  | .mk t n s none => [.mk t n s none]
  | .mk t n s (some p) => .mk t n s (some p) :: p.get_ancestor_iterator

/-- The values of the child iterator that appear strictly before the first
occurrence of `target`, in order (the `for ... break` collection loop of
`get_reverse_iterator`). -/
def valuesBefore (items : List (String × PyVal)) (target : PyVal) : List PyVal :=
  match items with
  | [] => []
  | (_, v) :: rest => if v = target then [] else v :: valuesBefore rest target

/-- `StackSupportNode.get_reverse_iterator`: when the parent's node is not
`None`, collect the parent's child-iterator values that appear before this
context's node, yield them nearest first, each paired with the parent
context, then yield everything from the parent's own reverse iterator.
`self.parent.node` with no parent raises `AttributeError`. -/
def StackSupportNode.get_reverse_iterator :
    StackSupportNode → Except PyErr (List (StackSupportNode × PyVal))
  | .mk _ _ _ none => .error (.attributeError "node")
  | .mk _ n _ (some p) =>
    if p.node = .lit .noneLit then .ok []
    else
      match p.get_reverse_iterator with
      | .error e => .error e
      | .ok rest =>
        .ok (((valuesBefore (childIterV p.node) n).reverse.map (fun v => (p, v))) ++ rest)

/-! ### The iterative `rebuild` walk (explicit stack machine) -/

/-- A transformer handed to `rebuild`: called right before a context is
turned back into an ast node, may return a replacement context. -/
abbrev Transformer : Type := StackSupportNode → PyVal → StackSupportNode

/-- The identity transformer of the round-trip property. -/
def identityTransformer : Transformer := fun context _ => context

/-- One saved frame of the explicit stack of `rebuild`:
`(fieldname, remaining iterator, saved context)`.  The saved `child` of the
source tuple is not read after popping and is omitted. -/
abbrev Frame : Type := String × List (String × PyVal) × StackSupportNode

def itemsWeight (items : List (String × PyVal)) : Nat :=
  (items.map (fun p => sizeV p.2)).sum

def stackWeight : List Frame → Nat
  | [] => 0
  | (_, rest, _) :: s => itemsWeight rest + stackWeight s

theorem sizeV_pos (v : PyVal) : 1 ≤ sizeV v := by
  cases v <;> simp [sizeV]

mutual
theorem itemsWeight_childIterFL (fl : FieldList) :
    itemsWeight (childIterFL fl) = sizeFL fl := by
  match fl with
  | .nil => simp [childIterFL, itemsWeight, sizeFL]
  | .scons n v r =>
    have ih := itemsWeight_childIterFL r
    simp [childIterFL, itemsWeight, sizeFL] at ih ⊢
    omega
  | .lcons n vs r =>
    have ih := itemsWeight_childIterFL r
    have ihv := itemsWeight_childIterVL n vs
    simp [childIterFL, itemsWeight, sizeFL, List.map_append, List.sum_append] at ih ihv ⊢
    omega
theorem itemsWeight_childIterVL (n : String) (vs : ValList) :
    itemsWeight (childIterVL n vs) = sizeVL vs := by
  match vs with
  | .nil => simp [childIterVL, itemsWeight, sizeVL]
  | .cons v r =>
    have ih := itemsWeight_childIterVL n r
    simp [childIterVL, itemsWeight, sizeVL] at ih ⊢
    omega
end

/-- The body of `rebuild`'s `while True` loop, with the loop state made
explicit: the current context, the remaining items of the current child
iterator, the explicit stack, and (instrumentation) the list of original
nodes for which the transformer has been invoked so far, in invocation
order.  Pulling an ast child pushes a frame and descends; a literal is
placed immediately; an exhausted iterator with an empty stack breaks out
of the loop; otherwise the finished context is constructed, transformed,
constructed again, and the final node is placed onto the saved parent. -/
def runRebuild (reg : Registry) (f : Transformer) (context : StackSupportNode)
    (gen : List (String × PyVal)) (stack : List Frame) (tr : List PyVal) :
    Except PyErr PyVal × List PyVal :=
  match gen with
  | (fieldname, child) :: rest =>
    match child with
    | PyVal.node t fl =>
      match context.push reg (PyVal.node t fl) with
      | .error e => (.error e, tr)
      | .ok childContext =>
        runRebuild reg f childContext (childIterFL fl) ((fieldname, rest, context) :: stack) tr
    | PyVal.lit l =>
      match context.place fieldname (.lit l) with
      | .error e => (.error e, tr)
      | .ok context2 => runRebuild reg f context2 rest stack tr
  | [] =>
    match stack with
    | [] => (.ok context.construct, tr)
    | (fieldname, rest, saved) :: stack2 =>
      let provisional := context.construct
      let context2 := f context provisional
      let node_update := context2.construct
      match saved.place fieldname node_update with
      | .error e => (.error e, tr ++ [context.node])
      | .ok saved2 => runRebuild reg f saved2 rest stack2 (tr ++ [context.node])
termination_by (itemsWeight gen + stackWeight stack, stack.length)
decreasing_by
  · apply Prod.Lex.left
    have h := itemsWeight_childIterFL fl
    simp [itemsWeight, stackWeight, sizeV] at h ⊢
    omega
  · apply Prod.Lex.left
    simp [itemsWeight, sizeV]
  · simp only [itemsWeight, stackWeight, List.map_nil, List.sum_nil, Nat.zero_add]
    exact Prod.Lex.right _ (Nat.lt_succ_self _)

/-- `rebuild(node, transformer)`: push a context for the root onto the
sentinel, run the loop, and construct the root context at the end.
The instrumentation trace is dropped. -/
def rebuild (reg : Registry) (node : PyVal) (transformer : Transformer) :
    Except PyErr PyVal :=
  match StackSupportNode.sentinel.push reg node with
  | .error e => .error e
  | .ok context => (runRebuild reg transformer context (childIterV node) [] []).1

/-- The instrumentation of `rebuild`: the original node of every context
the transformer was invoked for, in invocation order. -/
def rebuildTrace (reg : Registry) (node : PyVal) (transformer : Transformer) :
    List PyVal :=
  match StackSupportNode.sentinel.push reg node with
  | .error _ => []
  | .ok context => (runRebuild reg transformer context (childIterV node) [] []).2

/-! ### The iterative `capture` walk -/

/-- A saved frame of `capture`'s explicit stack: `(child, remaining
iterator, saved context)`; here the saved child is read after popping. -/
abbrev CapFrame : Type := PyVal × List (String × PyVal) × StackSupportNode

def capStackWeight : List CapFrame → Nat
  | [] => 0
  | (_, rest, _) :: s => itemsWeight rest + capStackWeight s

/-- The body of `capture`'s `while True` loop.  An ast child pushes a
frame and descends; a literal is skipped; an exhausted iterator with an
empty stack breaks; otherwise the frame is popped, `stop` (when given)
halts the whole traversal, and a `(context, child)` pair is yielded when
the predicate holds.  `out` accumulates the yields in order. -/
def runCapture (reg : Registry) (predicate : StackSupportNode → PyVal → Bool)
    (stop : Option (StackSupportNode → PyVal → Bool)) (context : StackSupportNode)
    (gen : List (String × PyVal)) (stack : List CapFrame)
    (out : List (StackSupportNode × PyVal)) :
    Except PyErr (List (StackSupportNode × PyVal)) :=
  match gen with
  | (_, child) :: rest =>
    match child with
    | PyVal.node t fl =>
      match context.push reg (PyVal.node t fl) with
      | .error e => .error e
      | .ok childContext =>
        runCapture reg predicate stop childContext (childIterFL fl)
          ((PyVal.node t fl, rest, context) :: stack) out
    | PyVal.lit _ => runCapture reg predicate stop context rest stack out
  | [] =>
    match stack with
    | [] => .ok out
    | (child, rest, saved) :: stack2 =>
      if (match stop with | some s => s saved child | none => false) then .ok out
      else if predicate saved child then
        runCapture reg predicate stop saved rest stack2 (out ++ [(saved, child)])
      else
        runCapture reg predicate stop saved rest stack2 out
termination_by (itemsWeight gen + capStackWeight stack, stack.length)
decreasing_by
  · apply Prod.Lex.left
    have h := itemsWeight_childIterFL fl
    simp [itemsWeight, capStackWeight, sizeV] at h ⊢
    omega
  · apply Prod.Lex.left
    simp [itemsWeight, sizeV]
  · simp only [itemsWeight, capStackWeight, List.map_nil, List.sum_nil, Nat.zero_add]
    exact Prod.Lex.right _ (Nat.lt_succ_self _)
  · simp only [itemsWeight, capStackWeight, List.map_nil, List.sum_nil, Nat.zero_add]
    exact Prod.Lex.right _ (Nat.lt_succ_self _)

/-- `capture(node, predicate, stop=None)`: push a context for the root
onto the sentinel and run the loop; the result is the finite sequence of
`(context, node)` yields in yield order. -/
def capture (reg : Registry) (node : PyVal)
    (predicate : StackSupportNode → PyVal → Bool)
    (stop : Option (StackSupportNode → PyVal → Bool)) :
    Except PyErr (List (StackSupportNode × PyVal)) :=
  match StackSupportNode.sentinel.push reg node with
  | .error e => .error e
  | .ok context => runCapture reg predicate stop context (childIterV node) [] []

/-! ### Well-formed trees, postorder, and the slot-shape abstraction -/

/-- The declared field names and arities of `sch` agree, in order, with the
actual fields of `fl`. -/
def fieldsMatchB : Schema → FieldList → Bool
  | [], .nil => true
  | (n, .single) :: sr, .scons m _ fr => decide (n = m) && fieldsMatchB sr fr
  | (n, .many) :: sr, .lcons m _ fr => decide (n = m) && fieldsMatchB sr fr
  | _, _ => false

def schemaNames (sch : Schema) : List String := sch.map Prod.fst

mutual
/-- A well-formed tree: every node's class is registered, its fields agree
with the declared schema (whose names are distinct, as Python class
attributes are), and all child nodes are well formed.  Literal leaves are
always well formed. -/
def wfB (reg : Registry) : PyVal → Bool
  | .lit _ => true
  | .node t fl =>
    match reg t with
    | none => false
    | some sch => decide (schemaNames sch).Nodup && fieldsMatchB sch fl && wfFL reg fl
def wfFL (reg : Registry) : FieldList → Bool
  | .nil => true
  | .scons _ v r => wfB reg v && wfFL reg r
  | .lcons _ vs r => wfVL reg vs && wfFL reg r
def wfVL (reg : Registry) : ValList → Bool
  | .nil => true
  | .cons v r => wfB reg v && wfVL reg r
end

mutual
/-- The nodes of a tree in post-order: every node strictly after all of
its descendants, the tree's own root last.  Literals are not nodes. -/
def postV : PyVal → List PyVal
  | .lit _ => []
  | .node t fl => postFL fl ++ [.node t fl]
def postFL : FieldList → List PyVal
  | .nil => []
  | .scons _ v r => postV v ++ postFL r
  | .lcons _ vs r => postVL vs ++ postFL r
def postVL : ValList → List PyVal
  | .nil => []
  | .cons v r => postV v ++ postVL r
end

/-- `postorder T`: the post-order node listing of a tree. -/
def postorder (v : PyVal) : List PyVal := postV v

/-- The shape of one accumulation attribute: a still-`None` single slot, a
single slot holding a non-`None` value, or a list slot.  `place` succeeds
or fails depending only on this shape. -/
inductive SlotShape where
  | free : SlotShape
  | taken : SlotShape
  | listShape : SlotShape
deriving DecidableEq, Repr

abbrev Shape : Type := List (String × SlotShape)

def shapeFL : FieldList → Shape
  | .nil => []
  | .scons n v r => (n, if v = .lit .noneLit then .free else .taken) :: shapeFL r
  | .lcons n _ r => (n, .listShape) :: shapeFL r

/-- Whether a placed value leaves a single slot looking `None` (placing the
literal `None` does: the `is None` assertion cannot tell it apart). -/
def takes (v : PyVal) : Bool := decide (v ≠ PyVal.lit Lit.noneLit)

def shapeFind : Shape → String → Option SlotShape
  | [], _ => none
  | (n, k) :: r, fn => if n = fn then some k else shapeFind r fn

/-- `place` on this context and field name will succeed. -/
def canPlaceSh (sh : Shape) (fn : String) : Bool :=
  match shapeFind sh fn with
  | some .listShape => true
  | some .free => true
  | some .taken => false
  | none => false

/-- Shape evolution of a successful or failed `place`. -/
def shapePlace : Shape → String → Bool → Shape
  | [], _, _ => []
  | (n, k) :: r, fn, tk =>
    if n = fn then
      match k with
      | .free => (n, if tk then .taken else .free) :: r
      | .taken => (n, .taken) :: r
      | .listShape => (n, .listShape) :: r
    else (n, k) :: shapePlace r fn tk

/-- Total version of `placeSlots`: identical on success, the identity on
failure (a raised exception leaves the attributes untouched). -/
def placeTSlots : FieldList → String → PyVal → FieldList
  | .nil, _, _ => .nil
  | .scons n cur rest, fn, v =>
    if n = fn then (if cur = .lit .noneLit then .scons n v rest else .scons n cur rest)
    else .scons n cur (placeTSlots rest fn v)
  | .lcons n vs rest, fn, v =>
    if n = fn then .lcons n (vs.append v) rest
    else .lcons n vs (placeTSlots rest fn v)

/-- Total version of `StackSupportNode.place`. -/
def placeT (self : StackSupportNode) (fieldname : String) (value : PyVal) :
    StackSupportNode :=
  .mk self.tag self.node (placeTSlots self.slots fieldname value) self.parent

theorem placeSlots_ok_of_canPlace (slots : FieldList) (fn : String) (v : PyVal)
    (h : canPlaceSh (shapeFL slots) fn = true) :
    placeSlots slots fn v = .ok (placeTSlots slots fn v) := by
  match slots with
  | .nil => simp [shapeFL, canPlaceSh, shapeFind] at h
  | .scons n cur rest =>
    by_cases hn : n = fn
    · subst hn
      simp only [shapeFL, canPlaceSh, shapeFind, if_pos rfl] at h
      by_cases hc : cur = .lit .noneLit
      · simp [placeSlots, placeTSlots, hc]
      · simp [hc] at h
    · simp only [shapeFL, canPlaceSh, shapeFind, if_neg hn] at h
      have ih := placeSlots_ok_of_canPlace rest fn v h
      simp only [placeSlots, placeTSlots, if_neg hn, ih]
  | .lcons n vs rest =>
    by_cases hn : n = fn
    · subst hn
      simp [placeSlots, placeTSlots]
    · simp only [shapeFL, canPlaceSh, shapeFind, if_neg hn] at h
      have ih := placeSlots_ok_of_canPlace rest fn v h
      simp only [placeSlots, placeTSlots, if_neg hn, ih]

theorem place_ok_of_canPlace (c : StackSupportNode) (fn : String) (v : PyVal)
    (h : canPlaceSh (shapeFL c.slots) fn = true) :
    c.place fn v = .ok (placeT c fn v) := by
  simp [StackSupportNode.place, placeSlots_ok_of_canPlace _ _ v h, placeT]

theorem shapeFL_placeTSlots (slots : FieldList) (fn : String) (v : PyVal) :
    shapeFL (placeTSlots slots fn v) = shapePlace (shapeFL slots) fn (takes v) := by
  match slots with
  | .nil => simp [placeTSlots, shapeFL, shapePlace]
  | .scons n cur rest =>
    have ih := shapeFL_placeTSlots rest fn v
    by_cases hn : n = fn
    · subst hn
      by_cases hc : cur = .lit .noneLit
      · by_cases hv : v = .lit .noneLit
        · simp [placeTSlots, hc, shapeFL, shapePlace, takes, hv]
        · simp [placeTSlots, hc, shapeFL, shapePlace, takes, hv]
      · simp [placeTSlots, hc, shapeFL, shapePlace, takes]
    · simp [placeTSlots, hn, shapeFL, shapePlace, ih]
  | .lcons n vs rest =>
    have ih := shapeFL_placeTSlots rest fn v
    by_cases hn : n = fn
    · subst hn
      simp [placeTSlots, shapeFL, shapePlace]
    · simp [placeTSlots, hn, shapeFL, shapePlace, ih]

theorem shapeFL_placeT (c : StackSupportNode) (fn : String) (v : PyVal) :
    shapeFL (placeT c fn v).slots = shapePlace (shapeFL c.slots) fn (takes v) := by
  simp [placeT, StackSupportNode.slots, shapeFL_placeTSlots]

theorem lexTwo {a b c d : Nat} (h : a < c ∨ (a = c ∧ b < d)) :
    Prod.Lex (fun x y : Nat => x < y) (fun x y : Nat => x < y) (a, b) (c, d) := by
  rcases h with h | ⟨h1, h2⟩
  · exact Prod.Lex.left _ _ h
  · subst h1
    exact Prod.Lex.right _ h2

theorem lexThree {a b c d e f : Nat}
    (h : a < d ∨ (a = d ∧ (b < e ∨ (b = e ∧ c < f)))) :
    Prod.Lex (fun x y : Nat => x < y)
      (Prod.Lex (fun x y : Nat => x < y) (fun x y : Nat => x < y)) (a, b, c) (d, e, f) := by
  rcases h with h | ⟨h1, h2⟩
  · exact Prod.Lex.left _ _ h
  · subst h1
    exact Prod.Lex.right _ (lexTwo h2)

def appendFL : FieldList → FieldList → FieldList
  | .nil, g => g
  | .scons n v r, g => .scons n v (appendFL r g)
  | .lcons n vs r, g => .lcons n vs (appendFL r g)

def namesFL : FieldList → List String
  | .nil => []
  | .scons n _ r => n :: namesFL r
  | .lcons n _ r => n :: namesFL r

def fieldCount : FieldList → Nat
  | .nil => 0
  | .scons _ _ r => 1 + fieldCount r
  | .lcons _ _ r => 1 + fieldCount r

/-- The shape of the freshly initialized accumulation attributes. -/
def shapeInit : Schema → Shape
  | [] => []
  | (n, .single) :: r => (n, .free) :: shapeInit r
  | (n, .many) :: r => (n, .listShape) :: shapeInit r

theorem shapeFL_initSlots (sch : Schema) : shapeFL (initSlots sch) = shapeInit sch := by
  induction sch with
  | nil => simp [initSlots, shapeFL, shapeInit]
  | cons p r ih =>
    obtain ⟨n, a⟩ := p
    cases a <;> simp [initSlots, shapeFL, shapeInit, ih]

theorem shapeFL_appendFL (a b : FieldList) :
    shapeFL (appendFL a b) = shapeFL a ++ shapeFL b := by
  match a with
  | .nil => simp [appendFL, shapeFL]
  | .scons n v r => simp [appendFL, shapeFL, shapeFL_appendFL r b]
  | .lcons n vs r => simp [appendFL, shapeFL, shapeFL_appendFL r b]

theorem shapeFind_append_of_none {p : Shape} {n : String} (q : Shape)
    (h : shapeFind p n = none) : shapeFind (p ++ q) n = shapeFind q n := by
  induction p with
  | nil => simp
  | cons x r ih =>
    obtain ⟨m, k⟩ := x
    by_cases hm : m = n
    · simp [shapeFind, hm] at h
    · simp [shapeFind, hm] at h ⊢
      exact ih h

theorem shapePlace_append_of_none {p : Shape} {n : String} (q : Shape) (tk : Bool)
    (h : shapeFind p n = none) : shapePlace (p ++ q) n tk = p ++ shapePlace q n tk := by
  induction p with
  | nil => simp
  | cons x r ih =>
    obtain ⟨m, k⟩ := x
    by_cases hm : m = n
    · simp [shapeFind, hm] at h
    · simp [shapeFind, hm] at h
      simp [shapePlace, hm, ih h]

theorem shapePlace_list_id {sh : Shape} {n : String} (tk : Bool)
    (h : shapeFind sh n = some .listShape) : shapePlace sh n tk = sh := by
  induction sh with
  | nil => simp [shapeFind] at h
  | cons x r ih =>
    obtain ⟨m, k⟩ := x
    by_cases hm : m = n
    · subst hm
      simp [shapeFind] at h
      simp [shapePlace, h]
    · simp [shapeFind, hm] at h
      simp [shapePlace, hm, ih h]

/-- Every ast child among the items is a well-formed tree. -/
def itemsWF (reg : Registry) (items : List (String × PyVal)) : Bool :=
  items.all (fun p => wfB reg p.2)

/-- Every `place` the rebuild loop will perform for these pending items on a
context of this slot shape succeeds.  The shape evolution only needs to know
whether the placed value can look like `None`; a rebuilt child is always a
freshly constructed node, never `None`, so original item values are
representative. -/
def fillsOKb (sh : Shape) : List (String × PyVal) → Bool
  | [] => true
  | (fn, v) :: rest => canPlaceSh sh fn && fillsOKb (shapePlace sh fn (takes v)) rest

theorem fillsOKb_childIterVL {sh : Shape} {n : String} (vs : ValList)
    (ys : List (String × PyVal)) (h : shapeFind sh n = some .listShape) :
    fillsOKb sh (childIterVL n vs ++ ys) = fillsOKb sh ys := by
  match vs with
  | .nil => simp [childIterVL]
  | .cons v r =>
    have ih := fillsOKb_childIterVL r ys h
    simp only [childIterVL, List.cons_append, fillsOKb, canPlaceSh, h,
      shapePlace_list_id (takes v) h, Bool.true_and, List.append_eq]
    exact ih

theorem schemaNames_cons (n : String) (a : Arity) (sr : Schema) :
    schemaNames ((n, a) :: sr) = n :: schemaNames sr := rfl

theorem fillsOKb_init (sch : Schema) (fl : FieldList) (pre : Shape)
    (hm : fieldsMatchB sch fl = true)
    (hd : (schemaNames sch).Nodup)
    (hp : ∀ m ∈ schemaNames sch, shapeFind pre m = none) :
    fillsOKb (pre ++ shapeInit sch) (childIterFL fl) = true := by
  match sch, fl with
  | [], .nil => simp [childIterFL, fillsOKb]
  | [], .scons _ _ _ => simp [fieldsMatchB] at hm
  | [], .lcons _ _ _ => simp [fieldsMatchB] at hm
  | (n, a) :: sr, .nil => cases a <;> simp [fieldsMatchB] at hm
  | (n, .single) :: sr, .lcons m vs fr => simp [fieldsMatchB] at hm
  | (n, .many) :: sr, .scons m v fr => simp [fieldsMatchB] at hm
  | (n, .single) :: sr, .scons m v fr =>
    simp only [fieldsMatchB, Bool.and_eq_true, decide_eq_true_eq] at hm
    obtain ⟨hnm, hm2⟩ := hm
    subst hnm
    rw [schemaNames_cons] at hd hp
    have hdc := List.nodup_cons.mp hd
    have hn0 : shapeFind pre n = none := hp n (List.mem_cons_self _ _)
    have hfind : shapeFind (pre ++ shapeInit ((n, Arity.single) :: sr)) n
        = some .free := by
      rw [shapeFind_append_of_none _ hn0]
      simp [shapeInit, shapeFind]
    simp only [childIterFL, fillsOKb, Bool.and_eq_true]
    refine ⟨by simp [canPlaceSh, hfind], ?_⟩
    rw [show shapeInit ((n, Arity.single) :: sr) = (n, SlotShape.free) :: shapeInit sr
      from by simp [shapeInit]]
    rw [shapePlace_append_of_none _ _ hn0]
    rw [show shapePlace ((n, SlotShape.free) :: shapeInit sr) n (takes v)
        = (n, if takes v then SlotShape.taken else SlotShape.free) :: shapeInit sr
      from by simp [shapePlace]]
    rw [show pre ++ (n, if takes v then SlotShape.taken else SlotShape.free) :: shapeInit sr
        = (pre ++ [(n, if takes v then SlotShape.taken else SlotShape.free)]) ++ shapeInit sr
      from by simp]
    apply fillsOKb_init sr fr _ hm2 hdc.2
    intro m hmem
    have hne : ¬(n = m) := fun hc => hdc.1 (hc ▸ hmem)
    rw [shapeFind_append_of_none _ (hp m (List.mem_cons_of_mem _ hmem))]
    simp [shapeFind, hne]
  | (n, .many) :: sr, .lcons m vs fr =>
    simp only [fieldsMatchB, Bool.and_eq_true, decide_eq_true_eq] at hm
    obtain ⟨hnm, hm2⟩ := hm
    subst hnm
    rw [schemaNames_cons] at hd hp
    have hdc := List.nodup_cons.mp hd
    have hn0 : shapeFind pre n = none := hp n (List.mem_cons_self _ _)
    have hfind : shapeFind (pre ++ shapeInit ((n, Arity.many) :: sr)) n
        = some .listShape := by
      rw [shapeFind_append_of_none _ hn0]
      simp [shapeInit, shapeFind]
    simp only [childIterFL]
    rw [fillsOKb_childIterVL vs _ hfind]
    rw [show shapeInit ((n, Arity.many) :: sr) = (n, SlotShape.listShape) :: shapeInit sr
      from by simp [shapeInit]]
    rw [show pre ++ (n, SlotShape.listShape) :: shapeInit sr
        = (pre ++ [(n, SlotShape.listShape)]) ++ shapeInit sr from by simp]
    apply fillsOKb_init sr fr _ hm2 hdc.2
    intro m hmem
    have hne : ¬(n = m) := fun hc => hdc.1 (hc ▸ hmem)
    rw [shapeFind_append_of_none _ (hp m (List.mem_cons_of_mem _ hmem))]
    simp [shapeFind, hne]

/-! ### Recursive reference semantics of the rebuild loop -/

mutual
/-- Reference semantics of the loop's handling of the pending items of one
context: literals are placed directly, ast children are fully rebuilt
(post-order, transformer applied) and the final nodes placed. -/
def fillItems (reg : Registry) (f : Transformer) (c : StackSupportNode) :
    List (String × PyVal) → StackSupportNode
  | [] => c
  | (fn, PyVal.lit l) :: rest => fillItems reg f (placeT c fn (.lit l)) rest
  | (fn, PyVal.node t fl) :: rest =>
    fillItems reg f (placeT c fn (rebuildNodeRef reg f c t fl)) rest
termination_by items => (itemsWeight items, 1)
decreasing_by
  · apply lexTwo
    simp only [itemsWeight, sizeV, List.map_cons, List.sum_cons]
    omega
  · apply lexTwo
    simp only [itemsWeight, sizeV, List.map_cons, List.sum_cons]
    omega
  · apply lexTwo
    simp only [itemsWeight, sizeV, List.map_cons, List.sum_cons]
    omega
/-- Reference semantics of fully rebuilding one ast child: open its
context, fill it from its own child iterator, construct the provisional
node, apply the transformer, construct the final node. -/
def rebuildNodeRef (reg : Registry) (f : Transformer) (parent : StackSupportNode)
    (t : String) (fl : FieldList) : PyVal :=
  let c0 : StackSupportNode := .mk t (.node t fl) (initSlots ((reg t).getD [])) (some parent)
  let cFull := fillItems reg f c0 (childIterFL fl)
  (f cFull cFull.construct).construct
termination_by (1 + sizeFL fl, 0)
decreasing_by
  apply lexTwo
  have h := itemsWeight_childIterFL fl
  simp [itemsWeight] at h ⊢
  omega
end

/-- The transformer invocations the loop performs while consuming these
items: all invocations inside each ast child subtree, the child itself
last; literals contribute none. -/
def traceItems (items : List (String × PyVal)) : List PyVal :=
  (items.map (fun p => postV p.2)).flatten

/-- Pending-stack invariant of the rebuild loop: each saved frame can
still receive the finished child (`place` will succeed), and its
remaining items are well formed and placeable afterwards. -/
def stackOKb (reg : Registry) : List Frame → Bool
  | [] => true
  | (fn, rest, saved) :: stack2 =>
    canPlaceSh (shapeFL saved.slots) fn &&
    itemsWF reg rest &&
    fillsOKb (shapePlace (shapeFL saved.slots) fn true) rest &&
    stackOKb reg stack2

/-- Reference value of the loop from a given state: finish the current
context, then repeatedly transform, construct and place upward through
the saved frames; the bottom context is constructed untransformed. -/
def finishState (reg : Registry) (f : Transformer) (c : StackSupportNode)
    (gen : List (String × PyVal)) : List Frame → PyVal
  | [] => (fillItems reg f c gen).construct
  | (fn, rest, saved) :: stack2 =>
    let cFull := fillItems reg f c gen
    finishState reg f (placeT saved fn ((f cFull cFull.construct).construct)) rest stack2

/-- Reference transformer-invocation trace of the loop from a given state
(`cnode` is the original node of the current context). -/
def traceState (cnode : PyVal) (gen : List (String × PyVal)) : List Frame → List PyVal
  | [] => traceItems gen
  | (_, rest, saved) :: stack2 => traceItems gen ++ (cnode :: traceState saved.node rest stack2)

theorem placeT_node (c : StackSupportNode) (fn : String) (v : PyVal) :
    (placeT c fn v).node = c.node := rfl

theorem placeT_tag (c : StackSupportNode) (fn : String) (v : PyVal) :
    (placeT c fn v).tag = c.tag := rfl

theorem fillItems_node (reg : Registry) (f : Transformer)
    (items : List (String × PyVal)) : ∀ c, (fillItems reg f c items).node = c.node := by
  induction items with
  | nil => intro c; simp [fillItems]
  | cons p rest ih =>
    intro c
    obtain ⟨fn, v⟩ := p
    cases v with
    | lit l => rw [fillItems]; rw [ih]; rfl
    | node t fl => rw [fillItems]; rw [ih]; rfl

theorem fillItems_tag (reg : Registry) (f : Transformer)
    (items : List (String × PyVal)) : ∀ c, (fillItems reg f c items).tag = c.tag := by
  induction items with
  | nil => intro c; simp [fillItems]
  | cons p rest ih =>
    intro c
    obtain ⟨fn, v⟩ := p
    cases v with
    | lit l => rw [fillItems]; rw [ih]; rfl
    | node t fl => rw [fillItems]; rw [ih]; rfl

theorem wfB_node_elim {reg : Registry} {t : String} {fl : FieldList}
    (h : wfB reg (.node t fl) = true) :
    ∃ sch, reg t = some sch ∧ (schemaNames sch).Nodup ∧
      fieldsMatchB sch fl = true ∧ wfFL reg fl = true := by
  rw [wfB] at h
  cases hr : reg t with
  | none => rw [hr] at h; simp at h
  | some sch =>
    rw [hr] at h
    simp only [Bool.and_eq_true, decide_eq_true_eq] at h
    exact ⟨sch, rfl, h.1.1, h.1.2, h.2⟩

mutual
theorem itemsWF_childIterFL (reg : Registry) (fl : FieldList)
    (h : wfFL reg fl = true) : itemsWF reg (childIterFL fl) = true := by
  match fl with
  | .nil => simp [childIterFL, itemsWF]
  | .scons n v r =>
    simp only [wfFL, Bool.and_eq_true] at h
    have ih := itemsWF_childIterFL reg r h.2
    simp only [childIterFL, itemsWF, List.all_cons, Bool.and_eq_true] at ih ⊢
    exact ⟨h.1, ih⟩
  | .lcons n vs r =>
    simp only [wfFL, Bool.and_eq_true] at h
    have ihv := itemsWF_childIterVL reg n vs h.1
    have ih := itemsWF_childIterFL reg r h.2
    simp only [childIterFL, itemsWF, List.all_append, Bool.and_eq_true] at ihv ih ⊢
    exact ⟨ihv, ih⟩
theorem itemsWF_childIterVL (reg : Registry) (n : String) (vs : ValList)
    (h : wfVL reg vs = true) : itemsWF reg (childIterVL n vs) = true := by
  match vs with
  | .nil => simp [childIterVL, itemsWF]
  | .cons v r =>
    simp only [wfVL, Bool.and_eq_true] at h
    have ih := itemsWF_childIterVL reg n r h.2
    simp only [childIterVL, itemsWF, List.all_cons, Bool.and_eq_true] at ih ⊢
    exact ⟨h.1, ih⟩
end

mutual
theorem traceItems_childIterFL (fl : FieldList) :
    traceItems (childIterFL fl) = postFL fl := by
  match fl with
  | .nil => simp [childIterFL, traceItems, postFL]
  | .scons n v r =>
    have ih := traceItems_childIterFL r
    simp only [childIterFL, traceItems, List.map_cons, List.flatten_cons, postFL] at ih ⊢
    rw [ih]
  | .lcons n vs r =>
    have ih := traceItems_childIterFL r
    have ihv := traceItems_childIterVL n vs
    simp only [childIterFL, traceItems, List.map_append, List.flatten_append, postFL] at ihv ih ⊢
    rw [ih, ihv]
theorem traceItems_childIterVL (n : String) (vs : ValList) :
    traceItems (childIterVL n vs) = postVL vs := by
  match vs with
  | .nil => simp [childIterVL, traceItems, postVL]
  | .cons v r =>
    have ih := traceItems_childIterVL n r
    simp only [childIterVL, traceItems, List.map_cons, List.flatten_cons, postVL] at ih ⊢
    rw [ih]
end

theorem traceItems_cons (fn : String) (v : PyVal) (rest : List (String × PyVal)) :
    traceItems ((fn, v) :: rest) = postV v ++ traceItems rest := by
  simp [traceItems]

theorem push_ok {reg : Registry} {t : String} {sch : Schema} (c : StackSupportNode)
    (fl : FieldList) (h : reg t = some sch) :
    c.push reg (.node t fl) = .ok (.mk t (.node t fl) (initSlots sch) (some c)) := by
  simp [StackSupportNode.push, h]

theorem takes_construct (c : StackSupportNode) : takes c.construct = true := by
  simp [takes, StackSupportNode.construct]

theorem fillItems_nil (reg : Registry) (f : Transformer) (c : StackSupportNode) :
    fillItems reg f c [] = c := by
  simp [fillItems]

theorem fillItems_cons_lit (reg : Registry) (f : Transformer) (c : StackSupportNode)
    (fn : String) (l : Lit) (rest : List (String × PyVal)) :
    fillItems reg f c ((fn, PyVal.lit l) :: rest)
      = fillItems reg f (placeT c fn (.lit l)) rest := by
  rw [fillItems]

theorem fillItems_cons_node (reg : Registry) (f : Transformer) (c : StackSupportNode)
    (fn t : String) (fl : FieldList) (rest : List (String × PyVal)) :
    fillItems reg f c ((fn, PyVal.node t fl) :: rest)
      = fillItems reg f (placeT c fn (rebuildNodeRef reg f c t fl)) rest := by
  rw [fillItems]

theorem rebuildNodeRef_reg {reg : Registry} {t : String} {sch : Schema}
    (f : Transformer) (parent : StackSupportNode) (fl : FieldList)
    (h : reg t = some sch) :
    rebuildNodeRef reg f parent t fl =
      (let cFull := fillItems reg f (.mk t (.node t fl) (initSlots sch) (some parent))
        (childIterFL fl)
      (f cFull cFull.construct).construct) := by
  rw [rebuildNodeRef, h]
  rfl

theorem finishState_congr_fill (reg : Registry) (f : Transformer)
    {c1 c2 : StackSupportNode} {gen1 gen2 : List (String × PyVal)}
    (stack : List Frame)
    (h : fillItems reg f c1 gen1 = fillItems reg f c2 gen2) :
    finishState reg f c1 gen1 stack = finishState reg f c2 gen2 stack := by
  cases stack with
  | nil => simp [finishState, h]
  | cons fr s2 =>
    obtain ⟨fn, rest, saved⟩ := fr
    simp [finishState, h]

theorem traceState_lit (cnode : PyVal) (fn : String) (l : Lit)
    (rest : List (String × PyVal)) (stack : List Frame) :
    traceState cnode ((fn, PyVal.lit l) :: rest) stack = traceState cnode rest stack := by
  cases stack with
  | nil => simp [traceState, traceItems_cons, postV]
  | cons fr s2 =>
    obtain ⟨fn2, rest2, saved⟩ := fr
    simp [traceState, traceItems_cons, postV]

theorem traceState_descend (cnode : PyVal) (fn t : String) (fl : FieldList)
    (rest : List (String × PyVal)) (stack : List Frame) :
    traceItems (childIterFL fl) ++ (PyVal.node t fl) :: traceState cnode rest stack
      = traceState cnode ((fn, PyVal.node t fl) :: rest) stack := by
  cases stack with
  | nil =>
    simp [traceState, traceItems_cons, postV, traceItems_childIterFL]
  | cons fr s2 =>
    obtain ⟨fn2, rest2, saved⟩ := fr
    simp [traceState, traceItems_cons, postV, traceItems_childIterFL]

/-- Simulation of the rebuild loop by its recursive reference semantics:
from any loop state whose pending items are well formed and placeable and
whose saved frames can still receive their children, the loop returns the
reference value and its transformer trace is the reference trace. -/
theorem runRebuild_spec (reg : Registry) (f : Transformer)
    (c : StackSupportNode) (gen : List (String × PyVal)) (stack : List Frame)
    (tr : List PyVal) :
    itemsWF reg gen = true →
    fillsOKb (shapeFL c.slots) gen = true →
    stackOKb reg stack = true →
    runRebuild reg f c gen stack tr =
      (.ok (finishState reg f c gen stack), tr ++ traceState c.node gen stack) := by
  induction c, gen, stack, tr using runRebuild.induct reg f with
  | case1 context stack tr fieldname rest t fl e hpush =>
    intro hwf _ _
    simp only [itemsWF, List.all_cons, Bool.and_eq_true] at hwf
    obtain ⟨sch, hsch, -, -, -⟩ := wfB_node_elim hwf.1
    rw [push_ok context fl hsch] at hpush
    exact absurd hpush (by simp)
  | case2 context stack tr fieldname rest t fl childContext hpush ih =>
    intro hwf hfill hstack
    simp only [itemsWF, List.all_cons, Bool.and_eq_true] at hwf
    obtain ⟨sch, hsch, hnd, hfm, hwfl⟩ := wfB_node_elim hwf.1
    rw [push_ok context fl hsch] at hpush
    simp only [Except.ok.injEq] at hpush
    simp only [fillsOKb, Bool.and_eq_true] at hfill
    have htk : takes (PyVal.node t fl) = true := by simp [takes]
    rw [htk] at hfill
    have hfill2 : fillsOKb (shapeFL childContext.slots) (childIterFL fl) = true := by
      rw [← hpush]
      simp only [StackSupportNode.slots, shapeFL_initSlots]
      have := fillsOKb_init sch fl [] hfm hnd (by intro m _; rfl)
      simpa using this
    have hstack2 : stackOKb reg ((fieldname, rest, context) :: stack) = true := by
      simp only [stackOKb, Bool.and_eq_true]
      refine ⟨⟨⟨hfill.1, ?_⟩, hfill.2⟩, hstack⟩
      simp only [itemsWF, Bool.and_eq_true] at hwf ⊢
      exact hwf.2
    have hrun := ih (itemsWF_childIterFL reg fl hwfl) hfill2 hstack2
    simp only [runRebuild, push_ok context fl hsch, ← hpush] at hrun ⊢
    rw [hrun]
    have hfin : finishState reg f (.mk t (.node t fl) (initSlots sch) (some context))
        (childIterFL fl) ((fieldname, rest, context) :: stack)
        = finishState reg f context ((fieldname, PyVal.node t fl) :: rest) stack := by
      rw [finishState_congr_fill reg f stack
        (fillItems_cons_node reg f context fieldname t fl rest)]
      rw [rebuildNodeRef_reg f context fl hsch]
      simp only [finishState]
    have htrace : traceState (StackSupportNode.mk t (.node t fl) (initSlots sch)
          (some context)).node (childIterFL fl) ((fieldname, rest, context) :: stack)
        = traceState context.node ((fieldname, PyVal.node t fl) :: rest) stack := by
      simp only [traceState, StackSupportNode.node]
      exact traceState_descend context.node fieldname t fl rest stack
    rw [hfin, htrace]
  | case3 context stack tr fieldname rest l e hplace =>
    intro _ hfill _
    simp only [fillsOKb, Bool.and_eq_true] at hfill
    rw [place_ok_of_canPlace context fieldname (.lit l) hfill.1] at hplace
    exact absurd hplace (by simp)
  | case4 context stack tr fieldname rest l childContext hplace ih =>
    intro hwf hfill hstack
    simp only [itemsWF, List.all_cons, Bool.and_eq_true] at hwf
    simp only [fillsOKb, Bool.and_eq_true] at hfill
    rw [place_ok_of_canPlace context fieldname (.lit l) hfill.1] at hplace
    simp only [Except.ok.injEq] at hplace
    have hfill2 : fillsOKb (shapeFL childContext.slots) rest = true := by
      rw [← hplace, shapeFL_placeT]
      exact hfill.2
    have hrun := ih (by simp [itemsWF, hwf.2]) hfill2 hstack
    simp only [runRebuild, place_ok_of_canPlace context fieldname (.lit l) hfill.1,
      ← hplace] at hrun ⊢
    rw [hrun]
    have hfin : finishState reg f (placeT context fieldname (.lit l)) rest stack
        = finishState reg f context ((fieldname, PyVal.lit l) :: rest) stack := by
      rw [finishState_congr_fill reg f stack
        (fillItems_cons_lit reg f context fieldname l rest)]
    rw [hfin, placeT_node, traceState_lit]
  | case5 context tr =>
    intro _ _ _
    simp [runRebuild, finishState, fillItems, traceState, traceItems]
  | case6 context tr fieldname rest saved s2 provisional context2 node_update e hplace =>
    intro _ _ hstack
    simp only [stackOKb, Bool.and_eq_true] at hstack
    obtain ⟨⟨⟨hcan, hrest⟩, hfl2⟩, hs2⟩ := hstack
    rw [place_ok_of_canPlace saved fieldname _ hcan] at hplace
    exact absurd hplace (by simp)
  | case7 context tr fieldname rest saved s2 provisional context2 node_update childContext hplace ih =>
    intro _ _ hstack
    simp only [stackOKb, Bool.and_eq_true] at hstack
    obtain ⟨⟨⟨hcan, hrest⟩, hfl2⟩, hs2⟩ := hstack
    have hnu : node_update = (f context context.construct).construct := rfl
    rw [hnu] at hplace
    rw [place_ok_of_canPlace saved fieldname _ hcan] at hplace
    simp only [Except.ok.injEq] at hplace
    have htk : takes ((f context context.construct).construct) = true :=
      takes_construct _
    have hfill2 : fillsOKb (shapeFL childContext.slots) rest = true := by
      rw [← hplace, shapeFL_placeT, htk]
      exact hfl2
    have hrun := ih hrest hfill2 hs2
    simp only [runRebuild, place_ok_of_canPlace saved fieldname _ hcan,
      ← hplace] at hrun ⊢
    rw [hrun]
    have hfin : finishState reg f (placeT saved fieldname
          ((f context context.construct).construct)) rest s2
        = finishState reg f context [] ((fieldname, rest, saved) :: s2) := by
      simp only [finishState, fillItems]
    rw [hfin, placeT_node]
    simp only [traceState, traceItems, List.map_nil, List.flatten_nil, List.nil_append,
      List.append_assoc, List.singleton_append]

/-! ### The identity round-trip -/

def ValList.concat : ValList → ValList → ValList
  | .nil, b => b
  | .cons a r, b => .cons a (ValList.concat r b)

/-- Repeated `append`, one element at a time, as the loop performs it. -/
def ValList.appendAll : ValList → ValList → ValList
  | acc, .nil => acc
  | acc, .cons v r => ValList.appendAll (acc.append v) r

theorem ValList.concat_nil (a : ValList) : ValList.concat a .nil = a := by
  match a with
  | .nil => rfl
  | .cons x r => rw [ValList.concat, ValList.concat_nil r]

theorem ValList.append_concat (acc : ValList) (v : PyVal) (r : ValList) :
    ValList.concat (acc.append v) r = ValList.concat acc (.cons v r) := by
  match acc with
  | .nil => rfl
  | .cons x q => rw [ValList.append, ValList.concat, ValList.append_concat q v r]; rfl

theorem ValList.appendAll_eq_concat (vs : ValList) : ∀ acc,
    ValList.appendAll acc vs = ValList.concat acc vs := by
  match vs with
  | .nil => intro acc; rw [ValList.appendAll, ValList.concat_nil]
  | .cons v r =>
    intro acc
    rw [ValList.appendAll, ValList.appendAll_eq_concat r, ValList.append_concat]

theorem ValList.appendAll_nil (vs : ValList) : ValList.appendAll .nil vs = vs := by
  rw [ValList.appendAll_eq_concat]
  rfl

theorem namesFL_appendFL (a b : FieldList) :
    namesFL (appendFL a b) = namesFL a ++ namesFL b := by
  match a with
  | .nil => rfl
  | .scons n v r => rw [appendFL, namesFL, namesFL_appendFL r b]; rfl
  | .lcons n vs r => rw [appendFL, namesFL, namesFL_appendFL r b]; rfl

theorem appendFL_assoc (a b c : FieldList) :
    appendFL (appendFL a b) c = appendFL a (appendFL b c) := by
  match a with
  | .nil => rfl
  | .scons n v r => rw [appendFL, appendFL, appendFL_assoc r b c]; rfl
  | .lcons n vs r => rw [appendFL, appendFL, appendFL_assoc r b c]; rfl

theorem placeTSlots_append_fresh (done rest : FieldList) (n : String) (v : PyVal)
    (h : n ∉ namesFL done) :
    placeTSlots (appendFL done rest) n v = appendFL done (placeTSlots rest n v) := by
  match done with
  | .nil => rfl
  | .scons m cur r =>
    have hm : ¬(m = n) := fun hc => h (by rw [hc]; exact List.mem_cons_self _ _)
    have hr : n ∉ namesFL r := fun hc => h (List.mem_cons_of_mem _ hc)
    rw [appendFL, placeTSlots]
    rw [if_neg hm, placeTSlots_append_fresh r rest n v hr]
    rfl
  | .lcons m vs r =>
    have hm : ¬(m = n) := fun hc => h (by rw [hc]; exact List.mem_cons_self _ _)
    have hr : n ∉ namesFL r := fun hc => h (List.mem_cons_of_mem _ hc)
    rw [appendFL, placeTSlots]
    rw [if_neg hm, placeTSlots_append_fresh r rest n v hr]
    rfl

theorem placeTSlots_scons_head (n : String) (r : FieldList) (v : PyVal) :
    placeTSlots (.scons n (.lit .noneLit) r) n v = .scons n v r := by
  simp [placeTSlots]

theorem placeTSlots_lcons_head (n : String) (vs : ValList) (r : FieldList) (v : PyVal) :
    placeTSlots (.lcons n vs r) n v = .lcons n (vs.append v) r := by
  simp [placeTSlots]

theorem placeT_mk (t : String) (nd : PyVal) (slots : FieldList)
    (p : Option StackSupportNode) (fn : String) (v : PyVal) :
    placeT (.mk t nd slots p) fn v = .mk t nd (placeTSlots slots fn v) p := rfl

theorem fillItems_append (reg : Registry) (f : Transformer)
    (xs ys : List (String × PyVal)) : ∀ c,
    fillItems reg f c (xs ++ ys) = fillItems reg f (fillItems reg f c xs) ys := by
  induction xs with
  | nil => intro c; rw [List.nil_append, fillItems_nil]
  | cons q rest ih =>
    intro c
    obtain ⟨fn, v⟩ := q
    cases v with
    | lit l =>
      rw [List.cons_append, fillItems_cons_lit, fillItems_cons_lit, ih]
    | node t1 fl1 =>
      rw [List.cons_append, fillItems_cons_node, fillItems_cons_node, ih]

theorem fresh_after_field {done ext : FieldList} {n : String} {rest : List String}
    (hfresh : ∀ m ∈ n :: rest, m ∉ namesFL done)
    (hnn : n ∉ rest)
    (hext : namesFL ext = [n]) :
    ∀ q ∈ rest, q ∉ namesFL (appendFL done ext) := by
  intro q hq
  rw [namesFL_appendFL, hext]
  intro hmem
  rcases List.mem_append.mp hmem with hc | hc
  · exact hfresh q (List.mem_cons_of_mem _ hq) hc
  · simp only [List.mem_cons, List.not_mem_nil, or_false] at hc
    exact hnn (hc ▸ hq)

theorem fillItems_id_scons_step (reg : Registry) (sr : Schema) (fr done : FieldList)
    (n t : String) (nd : PyVal) (p : Option StackSupportNode) (v1 : PyVal)
    (hnin : n ∉ namesFL done)
    (hrec : fillItems reg identityTransformer
        (.mk t nd (appendFL (appendFL done (.scons n v1 .nil)) (initSlots sr)) p)
        (childIterFL fr)
      = .mk t nd (appendFL (appendFL done (.scons n v1 .nil)) fr) p) :
    fillItems reg identityTransformer
        (.mk t nd (placeTSlots (appendFL done (initSlots ((n, Arity.single) :: sr))) n v1) p)
        (childIterFL fr)
      = .mk t nd (appendFL done (.scons n v1 fr)) p := by
  rw [show initSlots ((n, Arity.single) :: sr)
      = FieldList.scons n (.lit .noneLit) (initSlots sr) from rfl]
  rw [placeTSlots_append_fresh done _ n v1 hnin, placeTSlots_scons_head]
  rw [show FieldList.scons n v1 (initSlots sr)
      = appendFL (.scons n v1 .nil) (initSlots sr) from rfl]
  rw [← appendFL_assoc, hrec, appendFL_assoc]
  rfl

theorem fillItems_id_list_step (reg : Registry) (n t : String) (acc : ValList)
    (done restSlots : FieldList) (nd : PyVal) (p : Option StackSupportNode)
    (v : PyVal) (r : ValList)
    (hnin : n ∉ namesFL done)
    (hrec : fillItems reg identityTransformer
        (.mk t nd (appendFL done (.lcons n (acc.append v) restSlots)) p)
        (childIterVL n r)
      = .mk t nd (appendFL done (.lcons n (ValList.appendAll (acc.append v) r) restSlots)) p) :
    fillItems reg identityTransformer
        (.mk t nd (placeTSlots (appendFL done (.lcons n acc restSlots)) n v) p)
        (childIterVL n r)
      = .mk t nd (appendFL done (.lcons n (ValList.appendAll acc (.cons v r)) restSlots)) p := by
  rw [placeTSlots_append_fresh done _ n v hnin, placeTSlots_lcons_head]
  rw [hrec]
  rfl

mutual
theorem fillItems_id (reg : Registry) (sch : Schema) (fl : FieldList) (done : FieldList)
    (t : String) (nd : PyVal) (p : Option StackSupportNode)
    (hm : fieldsMatchB sch fl = true)
    (hw : wfFL reg fl = true)
    (hfresh : ∀ m ∈ schemaNames sch, m ∉ namesFL done)
    (hnd : (schemaNames sch).Nodup) :
    fillItems reg identityTransformer
      (.mk t nd (appendFL done (initSlots sch)) p) (childIterFL fl)
      = .mk t nd (appendFL done fl) p := by
  match sch, fl with
  | [], .nil =>
    rw [childIterFL, fillItems_nil]
    rfl
  | [], .scons _ _ _ => simp [fieldsMatchB] at hm
  | [], .lcons _ _ _ => simp [fieldsMatchB] at hm
  | (n, a) :: sr, .nil => cases a <;> simp [fieldsMatchB] at hm
  | (n, .single) :: sr, .lcons m vs fr => simp [fieldsMatchB] at hm
  | (n, .many) :: sr, .scons m v fr => simp [fieldsMatchB] at hm
  | (n, .single) :: sr, .scons m (PyVal.lit l) fr =>
    simp only [fieldsMatchB, Bool.and_eq_true, decide_eq_true_eq] at hm
    obtain ⟨hnm, hm2⟩ := hm
    subst hnm
    rw [schemaNames_cons] at hnd hfresh
    have hdc := List.nodup_cons.mp hnd
    have hnin : n ∉ namesFL done := hfresh n (List.mem_cons_self _ _)
    simp only [wfFL, Bool.and_eq_true] at hw
    have hfresh2 := fresh_after_field hfresh hdc.1
      (show namesFL (.scons n (.lit l) .nil) = [n] from rfl)
    rw [childIterFL, fillItems_cons_lit, placeT_mk]
    exact fillItems_id_scons_step reg sr fr done n t nd p (.lit l) hnin
      (fillItems_id reg sr fr (appendFL done (.scons n (.lit l) .nil)) t nd p
        hm2 hw.2 hfresh2 hdc.2)
  | (n, .single) :: sr, .scons m (PyVal.node t1 fl1) fr =>
    simp only [fieldsMatchB, Bool.and_eq_true, decide_eq_true_eq] at hm
    obtain ⟨hnm, hm2⟩ := hm
    subst hnm
    rw [schemaNames_cons] at hnd hfresh
    have hdc := List.nodup_cons.mp hnd
    have hnin : n ∉ namesFL done := hfresh n (List.mem_cons_self _ _)
    simp only [wfFL, Bool.and_eq_true] at hw
    have hfresh2 := fresh_after_field hfresh hdc.1
      (show namesFL (.scons n (.node t1 fl1) .nil) = [n] from rfl)
    rw [childIterFL, fillItems_cons_node, rebuildNodeRef_id reg _ t1 fl1 hw.1, placeT_mk]
    exact fillItems_id_scons_step reg sr fr done n t nd p (.node t1 fl1) hnin
      (fillItems_id reg sr fr (appendFL done (.scons n (.node t1 fl1) .nil)) t nd p
        hm2 hw.2 hfresh2 hdc.2)
  | (n, .many) :: sr, .lcons m vs fr =>
    simp only [fieldsMatchB, Bool.and_eq_true, decide_eq_true_eq] at hm
    obtain ⟨hnm, hm2⟩ := hm
    subst hnm
    rw [schemaNames_cons] at hnd hfresh
    have hdc := List.nodup_cons.mp hnd
    have hnin : n ∉ namesFL done := hfresh n (List.mem_cons_self _ _)
    simp only [wfFL, Bool.and_eq_true] at hw
    rw [childIterFL, fillItems_append]
    rw [show initSlots ((n, Arity.many) :: sr)
        = FieldList.lcons n .nil (initSlots sr) from rfl]
    rw [fillItems_id_list reg n vs .nil done (initSlots sr) t nd p hw.1 hnin]
    rw [ValList.appendAll_nil]
    rw [show FieldList.lcons n vs (initSlots sr)
        = appendFL (.lcons n vs .nil) (initSlots sr) from rfl]
    rw [← appendFL_assoc]
    have hfresh2 := fresh_after_field hfresh hdc.1
      (show namesFL (.lcons n vs .nil) = [n] from rfl)
    rw [fillItems_id reg sr fr (appendFL done (.lcons n vs .nil)) t nd p hm2 hw.2
      hfresh2 hdc.2]
    rw [appendFL_assoc]
    rfl
termination_by (sizeFL fl, fieldCount fl, 1)
decreasing_by
  · apply lexThree
    simp only [sizeFL, fieldCount]
    omega
  · apply lexThree
    simp only [sizeFL, sizeV, fieldCount]
    omega
  · apply lexThree
    simp only [sizeFL, sizeV, fieldCount]
    omega
  · apply lexThree
    simp only [sizeFL, fieldCount]
    omega
  · apply lexThree
    simp only [sizeFL, fieldCount]
    omega
theorem fillItems_id_list (reg : Registry) (n : String) (vs : ValList) (acc : ValList)
    (done restSlots : FieldList) (t : String) (nd : PyVal) (p : Option StackSupportNode)
    (hw : wfVL reg vs = true)
    (hnin : n ∉ namesFL done) :
    fillItems reg identityTransformer
      (.mk t nd (appendFL done (.lcons n acc restSlots)) p) (childIterVL n vs)
      = .mk t nd (appendFL done (.lcons n (ValList.appendAll acc vs) restSlots)) p := by
  match vs with
  | .nil => rw [childIterVL, fillItems_nil, ValList.appendAll]
  | .cons (PyVal.lit l) r =>
    simp only [wfVL, Bool.and_eq_true] at hw
    rw [childIterVL, fillItems_cons_lit, placeT_mk]
    exact fillItems_id_list_step reg n t acc done restSlots nd p (.lit l) r hnin
      (fillItems_id_list reg n r (acc.append (.lit l)) done restSlots t nd p hw.2 hnin)
  | .cons (PyVal.node t1 fl1) r =>
    simp only [wfVL, Bool.and_eq_true] at hw
    rw [childIterVL, fillItems_cons_node, rebuildNodeRef_id reg _ t1 fl1 hw.1, placeT_mk]
    exact fillItems_id_list_step reg n t acc done restSlots nd p (.node t1 fl1) r hnin
      (fillItems_id_list reg n r (acc.append (.node t1 fl1)) done restSlots t nd p
        hw.2 hnin)
termination_by (sizeVL vs, 1, 0)
decreasing_by
  · apply lexThree
    simp only [sizeVL, sizeV]
    omega
  · apply lexThree
    simp only [sizeVL, sizeV]
    omega
  · apply lexThree
    simp only [sizeVL, sizeV]
    omega
theorem rebuildNodeRef_id (reg : Registry) (parent : StackSupportNode)
    (t : String) (fl : FieldList) (h : wfB reg (.node t fl) = true) :
    rebuildNodeRef reg identityTransformer parent t fl = .node t fl := by
  obtain ⟨sch, hsch, hnd, hfm, hwfl⟩ := wfB_node_elim h
  rw [rebuildNodeRef_reg identityTransformer parent fl hsch]
  have hfill := fillItems_id reg sch fl .nil t (.node t fl) (some parent) hfm hwfl
    (by intro q _; simp [namesFL]) hnd
  rw [show appendFL FieldList.nil (initSlots sch) = initSlots sch from rfl] at hfill
  simp only [identityTransformer]
  rw [hfill]
  rfl
termination_by (1 + sizeFL fl, 0, 0)
decreasing_by
  apply lexThree
  omega
end

/-- Top-level characterization of `rebuild` on a well-formed tree: the
value is the reference value and the transformer trace is the post-order
listing of the root's proper subtrees (the root itself is missing). -/
theorem rebuild_spec_top (reg : Registry) (f : Transformer) (t : String) (fl : FieldList)
    {sch : Schema} (hsch : reg t = some sch) (hwf : wfB reg (.node t fl) = true) :
    rebuild reg (.node t fl) f
      = .ok (finishState reg f (.mk t (.node t fl) (initSlots sch) (some .sentinel))
          (childIterFL fl) [])
    ∧ rebuildTrace reg (.node t fl) f = postFL fl := by
  obtain ⟨sch2, hsch2, hnd, hfm, hwfl⟩ := wfB_node_elim hwf
  rw [hsch] at hsch2
  have hs : sch2 = sch := by injection hsch2.symm
  rw [hs] at hnd hfm
  have hfillsOK : fillsOKb
      (shapeFL (StackSupportNode.mk t (.node t fl) (initSlots sch) (some .sentinel)).slots)
      (childIterFL fl) = true := by
    simp only [StackSupportNode.slots, shapeFL_initSlots]
    have := fillsOKb_init sch fl [] hfm hnd (fun m _ => rfl)
    simpa using this
  have hrun := runRebuild_spec reg f
    (.mk t (.node t fl) (initSlots sch) (some .sentinel)) (childIterFL fl) [] []
    (itemsWF_childIterFL reg fl hwfl) hfillsOK rfl
  constructor
  · rw [rebuild, push_ok StackSupportNode.sentinel fl hsch]
    simp only [childIterV]
    rw [hrun]
  · rw [rebuildTrace, push_ok StackSupportNode.sentinel fl hsch]
    simp only [childIterV]
    rw [hrun]
    simp only [traceState, List.nil_append, traceItems_childIterFL]

/-- C1.  Round-trip: for every well-formed tree `T`, `rebuild(T, identity)`
with the identity transformer `identity(ctx, node) = ctx` returns a tree
equal to `T` in node type and field values at every node. -/
theorem rebuild_identity_roundtrip (reg : Registry) (t : String) (fl : FieldList)
    (hwf : wfB reg (.node t fl) = true) :
    rebuild reg (.node t fl) identityTransformer = .ok (.node t fl) := by
  obtain ⟨sch, hsch, hnd, hfm, hwfl⟩ := wfB_node_elim hwf
  rw [(rebuild_spec_top reg identityTransformer t fl hsch hwf).1]
  have hfill := fillItems_id reg sch fl .nil t (.node t fl) (some .sentinel) hfm hwfl
    (by intro q _; simp [namesFL]) hnd
  rw [show appendFL FieldList.nil (initSlots sch) = initSlots sch from rfl] at hfill
  simp only [finishState]
  rw [hfill]
  rfl

/-- A concrete registry covering the node classes of the spec's Scenario A
(`Module`, `Assign`, `Name`, `Const`, `Store`), as the generated
`StackSupportNode` subclasses declare them. -/
def regEx : Registry := fun t =>
  if t = "Module" then some [("body", .many), ("type_ignores", .many)]
  else if t = "Assign" then some [("targets", .many), ("value", .single), ("type_comment", .single)]
  else if t = "Name" then some [("id", .single), ("ctx", .single)]
  else if t = "Const" then some [("value", .single), ("kind", .single)]
  else if t = "Store" then some []
  else none

def storeEx : PyVal := .node "Store" .nil

def nameExFL : FieldList := .scons "id" (.lit (.str "x")) (.scons "ctx" storeEx .nil)

def nameEx : PyVal := .node "Name" nameExFL

def constEx : PyVal := .node "Const" (.scons "value" (.lit (.int 3)) (.scons "kind" (.lit .noneLit) .nil))

def assignEx : PyVal := .node "Assign" (.lcons "targets" (.cons nameEx .nil)
  (.scons "value" constEx (.scons "type_comment" (.lit .noneLit) .nil)))

def moduleExFL : FieldList := .lcons "body" (.cons assignEx .nil) (.lcons "type_ignores" .nil .nil)

def moduleEx : PyVal := .node "Module" moduleExFL

/-- Witness for C1 at Scenario A's tree. -/
theorem rebuild_identity_roundtrip_witness :
    wfB regEx moduleEx = true ∧
    rebuild regEx moduleEx identityTransformer = .ok moduleEx :=
  ⟨by decide, rebuild_identity_roundtrip regEx "Module" moduleExFL (by decide)⟩

/-- C2 counterexample: on the one-node tree `Store()`, the loop breaks out
before ever invoking the transformer, so the invocation trace is empty
while the post-order node listing holds the root.  The claim's "exactly
once for every node of the tree (including the root)" is false. -/
theorem rebuild_transformer_root_cex :
    rebuildTrace regEx storeEx identityTransformer = [] ∧
    postorder storeEx = [storeEx] ∧
    rebuildTrace regEx storeEx identityTransformer ≠ postorder storeEx := by
  have h := (rebuild_spec_top regEx identityTransformer "Store" FieldList.nil
    (show regEx "Store" = some [] from by decide) (by decide)).2
  refine ⟨by simpa [postFL] using h, rfl, ?_⟩
  rw [show postorder storeEx = [storeEx] from rfl]
  rw [show rebuildTrace regEx storeEx identityTransformer = [] from by simpa [postFL] using h]
  simp

/-- C2 (amended).  For every well-formed tree and transformer, `rebuild`
invokes the transformer exactly once for every node except the root, each
invocation strictly after the invocations for all of that node's
descendants, whose rebuilt results have already been placed into the
node's fields; the trace of original nodes is exactly the post-order
listing with its last element (the root) missing, and the root's final
context is constructed without a transformer invocation. -/
theorem rebuild_transformer_postorder_nonroot (reg : Registry) (f : Transformer)
    (t : String) (fl : FieldList) (hwf : wfB reg (.node t fl) = true) :
    rebuildTrace reg (.node t fl) f = (postorder (.node t fl)).dropLast := by
  obtain ⟨sch, hsch, -, -, -⟩ := wfB_node_elim hwf
  rw [(rebuild_spec_top reg f t fl hsch hwf).2]
  simp [postorder, postV, List.dropLast_concat]

/-- Witness for the amended C2 at Scenario A's tree: the trace is
`[Store, Name, Const, Assign]`, post-order without the `Module` root. -/
theorem rebuild_transformer_postorder_nonroot_witness :
    wfB regEx moduleEx = true ∧
    rebuildTrace regEx moduleEx identityTransformer
      = (postorder moduleEx).dropLast :=
  ⟨by decide,
    rebuild_transformer_postorder_nonroot regEx identityTransformer "Module" moduleExFL
      (by decide)⟩

/-! ### Reference semantics of the capture walk -/

mutual
/-- Reference yields of the capture loop while consuming the pending items
of the context `c`: literals yield nothing, an ast child contributes its
own subtree's yields followed by the child itself when the predicate
holds, then the later items' yields. -/
def capItems (reg : Registry) (P : StackSupportNode → PyVal → Bool)
    (c : StackSupportNode) : List (String × PyVal) → List (StackSupportNode × PyVal)
  | [] => []
  | (_, PyVal.lit _) :: rest => capItems reg P c rest
  | (_, PyVal.node t fl) :: rest =>
    capNodeRef reg P c t fl
      ++ (if P c (.node t fl) then [(c, PyVal.node t fl)] else [])
      ++ capItems reg P c rest
termination_by items => (itemsWeight items, 1)
decreasing_by
  · apply lexTwo
    simp only [itemsWeight, sizeV, List.map_cons, List.sum_cons]
    omega
  · apply lexTwo
    simp only [itemsWeight, sizeV, List.map_cons, List.sum_cons]
    omega
  · apply lexTwo
    simp only [itemsWeight, sizeV, List.map_cons, List.sum_cons]
    omega
/-- Reference yields inside one ast child's subtree. -/
def capNodeRef (reg : Registry) (P : StackSupportNode → PyVal → Bool)
    (parent : StackSupportNode) (t : String) (fl : FieldList) :
    List (StackSupportNode × PyVal) :=
  capItems reg P (.mk t (.node t fl) (initSlots ((reg t).getD [])) (some parent))
    (childIterFL fl)
termination_by (1 + sizeFL fl, 0)
decreasing_by
  apply lexTwo
  have h := itemsWeight_childIterFL fl
  simp [itemsWeight] at h ⊢
  omega
end

theorem capItems_nil (reg : Registry) (P : StackSupportNode → PyVal → Bool)
    (c : StackSupportNode) : capItems reg P c [] = [] := by
  rw [capItems]

theorem capItems_cons_lit (reg : Registry) (P : StackSupportNode → PyVal → Bool)
    (c : StackSupportNode) (fn : String) (l : Lit) (rest : List (String × PyVal)) :
    capItems reg P c ((fn, PyVal.lit l) :: rest) = capItems reg P c rest := by
  rw [capItems]

theorem capItems_cons_node (reg : Registry) (P : StackSupportNode → PyVal → Bool)
    (c : StackSupportNode) (fn t : String) (fl : FieldList) (rest : List (String × PyVal)) :
    capItems reg P c ((fn, PyVal.node t fl) :: rest)
      = capNodeRef reg P c t fl
        ++ (if P c (.node t fl) then [(c, PyVal.node t fl)] else [])
        ++ capItems reg P c rest := by
  rw [capItems]

/-- Reference yields of the capture loop from a full state. -/
def capState (reg : Registry) (P : StackSupportNode → PyVal → Bool)
    (c : StackSupportNode) (gen : List (String × PyVal)) :
    List CapFrame → List (StackSupportNode × PyVal)
  | [] => capItems reg P c gen
  | (child, rest, saved) :: s2 =>
    capItems reg P c gen ++ (if P saved child then [(saved, child)] else [])
      ++ capState reg P saved rest s2

/-- Every saved capture frame's remaining items are well formed. -/
def capStackWF (reg : Registry) : List CapFrame → Bool
  | [] => true
  | (_, rest, _) :: s2 => itemsWF reg rest && capStackWF reg s2

theorem capState_cons_lit (reg : Registry) (P : StackSupportNode → PyVal → Bool)
    (c : StackSupportNode) (fn : String) (l : Lit) (rest : List (String × PyVal))
    (stack : List CapFrame) :
    capState reg P c ((fn, PyVal.lit l) :: rest) stack = capState reg P c rest stack := by
  cases stack with
  | nil => simp [capState, capItems_cons_lit]
  | cons fr s2 =>
    obtain ⟨child, rest2, saved⟩ := fr
    simp [capState, capItems_cons_lit]

theorem capState_descend (reg : Registry) (P : StackSupportNode → PyVal → Bool)
    {t : String} {sch : Schema} (c : StackSupportNode) (fn : String) (fl : FieldList)
    (rest : List (String × PyVal)) (stack : List CapFrame)
    (hsch : reg t = some sch) :
    capState reg P (.mk t (.node t fl) (initSlots sch) (some c)) (childIterFL fl)
        ((PyVal.node t fl, rest, c) :: stack)
      = capState reg P c ((fn, PyVal.node t fl) :: rest) stack := by
  have hnode : capNodeRef reg P c t fl
      = capItems reg P (.mk t (.node t fl) (initSlots sch) (some c)) (childIterFL fl) := by
    rw [capNodeRef, hsch]
    rfl
  cases stack with
  | nil => simp [capState, capItems_cons_node, hnode]
  | cons fr s2 =>
    obtain ⟨child, rest2, saved⟩ := fr
    simp [capState, capItems_cons_node, hnode]

/-- Simulation of the capture loop (no `stop`) by its reference yields. -/
theorem runCapture_spec (reg : Registry) (P : StackSupportNode → PyVal → Bool)
    (c : StackSupportNode) (gen : List (String × PyVal)) (stack : List CapFrame)
    (out : List (StackSupportNode × PyVal)) :
    itemsWF reg gen = true →
    capStackWF reg stack = true →
    runCapture reg P none c gen stack out = .ok (out ++ capState reg P c gen stack) := by
  induction c, gen, stack, out using runCapture.induct reg P none with
  | case1 context stack out fn rest t fl e hpush =>
    intro hwf _
    simp only [itemsWF, List.all_cons, Bool.and_eq_true] at hwf
    obtain ⟨sch, hsch, -, -, -⟩ := wfB_node_elim hwf.1
    rw [push_ok context fl hsch] at hpush
    exact absurd hpush (by simp)
  | case2 context stack out fn rest t fl childContext hpush ih =>
    intro hwf hstack
    simp only [itemsWF, List.all_cons, Bool.and_eq_true] at hwf
    obtain ⟨sch, hsch, -, -, hwfl⟩ := wfB_node_elim hwf.1
    rw [push_ok context fl hsch] at hpush
    simp only [Except.ok.injEq] at hpush
    have hstack2 : capStackWF reg ((PyVal.node t fl, rest, context) :: stack) = true := by
      simp only [capStackWF, Bool.and_eq_true]
      exact ⟨by simp only [itemsWF, Bool.and_eq_true] at hwf ⊢; exact hwf.2, hstack⟩
    have hrun := ih (itemsWF_childIterFL reg fl hwfl) hstack2
    simp only [runCapture, push_ok context fl hsch, ← hpush] at hrun ⊢
    rw [hrun, capState_descend reg P context fn fl rest stack hsch]
  | case3 context stack out fn rest l ih =>
    intro hwf hstack
    simp only [itemsWF, List.all_cons, Bool.and_eq_true] at hwf
    have hrun := ih (by simp [itemsWF, hwf.2]) hstack
    simp only [runCapture] at hrun ⊢
    rw [hrun, capState_cons_lit]
  | case4 context out =>
    intro _ _
    simp [runCapture, capState, capItems_nil]
  | case5 context out child rest saved s2 hstop =>
    simp at hstop
  | case6 context out child rest saved s2 hstop hpred ih =>
    intro _ hstack
    simp only [capStackWF, Bool.and_eq_true] at hstack
    have hrun := ih hstack.1 hstack.2
    simp only [runCapture, hpred, if_true, Bool.false_eq_true, if_false] at hrun ⊢
    rw [hrun]
    simp [capState, capItems_nil, hpred]
  | case7 context out child rest saved s2 hstop hpred ih =>
    intro _ hstack
    simp only [capStackWF, Bool.and_eq_true] at hstack
    have hrun := ih hstack.1 hstack.2
    simp only [runCapture, hpred, Bool.false_eq_true, if_false] at hrun ⊢
    rw [hrun]
    simp [capState, capItems_nil, hpred]

/-- Top-level characterization of `capture` (no `stop`) on a well-formed
tree: the yields are the reference yields of the root context. -/
theorem capture_spec_top (reg : Registry) (P : StackSupportNode → PyVal → Bool)
    (t : String) (fl : FieldList) {sch : Schema}
    (hsch : reg t = some sch) (hwf : wfB reg (.node t fl) = true) :
    capture reg (.node t fl) P none
      = .ok (capItems reg P (.mk t (.node t fl) (initSlots sch) (some .sentinel))
          (childIterFL fl)) := by
  obtain ⟨sch2, hsch2, -, -, hwfl⟩ := wfB_node_elim hwf
  rw [hsch] at hsch2
  have hs : sch2 = sch := by injection hsch2.symm
  rw [capture, push_ok StackSupportNode.sentinel fl hsch]
  simp only [childIterV]
  rw [runCapture_spec reg P _ (childIterFL fl) [] [] (itemsWF_childIterFL reg fl hwfl) rfl]
  simp [capState]

mutual
theorem capItems_snd (reg : Registry) (Q : PyVal → Bool)
    (items : List (String × PyVal)) : ∀ c : StackSupportNode,
    (capItems reg (fun _ n => Q n) c items).map Prod.snd = (traceItems items).filter Q := by
  match items with
  | [] =>
    intro c
    rw [capItems_nil]
    simp [traceItems]
  | (fn, PyVal.lit l) :: rest =>
    intro c
    rw [capItems_cons_lit, traceItems_cons]
    simp only [postV, List.nil_append]
    exact capItems_snd reg Q rest c
  | (fn, PyVal.node t fl) :: rest =>
    intro c
    rw [capItems_cons_node, traceItems_cons]
    simp only [List.map_append, List.filter_append, postV]
    rw [capNodeRef_snd reg Q t fl c, capItems_snd reg Q rest c]
    congr 1
    by_cases hq : Q (PyVal.node t fl) <;> simp [hq]
termination_by (itemsWeight items, 1)
decreasing_by
  · apply lexTwo
    simp only [itemsWeight, sizeV, List.map_cons, List.sum_cons]
    omega
  · apply lexTwo
    simp only [itemsWeight, sizeV, List.map_cons, List.sum_cons]
    omega
  · apply lexTwo
    simp only [itemsWeight, sizeV, List.map_cons, List.sum_cons]
    omega
theorem capNodeRef_snd (reg : Registry) (Q : PyVal → Bool) (t : String) (fl : FieldList)
    (parent : StackSupportNode) :
    (capNodeRef reg (fun _ n => Q n) parent t fl).map Prod.snd = (postFL fl).filter Q := by
  rw [capNodeRef, capItems_snd reg Q (childIterFL fl) _, traceItems_childIterFL]
termination_by (1 + sizeFL fl, 0)
decreasing_by
  apply lexTwo
  have h := itemsWeight_childIterFL fl
  simp [itemsWeight] at h ⊢
  omega
end

/-- C4 counterexample: on the one-node tree `Store()` with the
always-true predicate, `capture` yields nothing, although the root is a
node of the tree satisfying the predicate: the loop breaks out when the
stack empties, before the root is ever tested or yielded. -/
theorem capture_root_cex :
    capture regEx storeEx (fun _ _ => true) none = .ok []
    ∧ ((postorder storeEx).filter (fun _ => true)) = [storeEx] := by
  constructor
  · have h := capture_spec_top regEx (fun _ _ => true) "Store" FieldList.nil
      (show regEx "Store" = some [] from by decide) (by decide)
    rw [show storeEx = PyVal.node "Store" FieldList.nil from rfl, h]
    rw [show childIterFL FieldList.nil = [] from rfl, capItems_nil]
  · rfl

/-- C4 (amended).  For every well-formed tree `T` and node predicate `P`,
`capture(T, P)` yields exactly those non-root nodes of `T` that satisfy
`P`, in post-order: the post-order subsequence of `T`'s nodes satisfying
`P` with the root excluded — the root is never tested or yielded. -/
theorem capture_postorder_filter_nonroot (reg : Registry) (Q : PyVal → Bool)
    (t : String) (fl : FieldList) (hwf : wfB reg (.node t fl) = true) :
    ∃ l, capture reg (.node t fl) (fun _ n => Q n) none = .ok l
      ∧ l.map Prod.snd = ((postorder (.node t fl)).dropLast).filter Q := by
  obtain ⟨sch, hsch, -, -, -⟩ := wfB_node_elim hwf
  refine ⟨_, capture_spec_top reg (fun _ n => Q n) t fl hsch hwf, ?_⟩
  rw [capItems_snd reg Q (childIterFL fl) _, traceItems_childIterFL]
  simp [postorder, postV, List.dropLast_concat]

/-- Witness for the amended C4: capturing `Const` nodes in Scenario A's
tree yields exactly `Const(3)`. -/
theorem capture_postorder_filter_nonroot_witness :
    wfB regEx moduleEx = true ∧
    (∃ l, capture regEx moduleEx
        (fun _ n => match n with | PyVal.node t _ => t = "Const" | _ => false) none = .ok l
      ∧ l.map Prod.snd = ((postorder moduleEx).dropLast).filter
          (fun n => match n with | PyVal.node t _ => t = "Const" | _ => false)) :=
  ⟨by decide,
    capture_postorder_filter_nonroot regEx
      (fun n => match n with | PyVal.node t _ => t = "Const" | _ => false)
      "Module" moduleExFL (by decide)⟩

/-- A builder context mirroring an empty `Module` node, as `rebuild` would
push it onto the sentinel. -/
def modCtx : StackSupportNode :=
  .mk "Module" (.node "Module" (.lcons "body" .nil (.lcons "type_ignores" .nil .nil)))
    (initSlots [("body", .many), ("type_ignores", .many)]) (some .sentinel)

/-- C5 counterexample: `push` performs no "declared field" association
check.  `nameEx` is held by no declared field of `modCtx`'s original node
(whose child iterator is empty), yet `push` succeeds and returns a child
context instead of failing. -/
theorem push_no_field_check_cex :
    ((childIterV modCtx.node).all (fun q => q.2 ≠ nameEx)) = true
    ∧ modCtx.push regEx nameEx
      = .ok (.mk "Name" nameEx (initSlots [("id", .single), ("ctx", .single)])
          (some modCtx)) := by
  constructor
  · decide
  · decide

/-- C5 (amended).  `push(value)` performs only a registry lookup on the
value's class: it returns a child context for any ast node whose class is
registered, regardless of whether any declared field of the current
original node holds the value; it raises `KeyError` exactly when the
class is not registered. -/
theorem push_registry_only (reg : Registry) (c : StackSupportNode)
    (t : String) (fl : FieldList) :
    (∀ sch, reg t = some sch →
      c.push reg (.node t fl) = .ok (.mk t (.node t fl) (initSlots sch) (some c)))
    ∧ (reg t = none → c.push reg (.node t fl) = .error (.keyError t)) := by
  constructor
  · intro sch hsch
    exact push_ok c fl hsch
  · intro hnone
    simp [StackSupportNode.push, hnone]

/-- Witness for the amended C5. -/
theorem push_registry_only_witness :
    regEx "Name" = some [("id", Arity.single), ("ctx", Arity.single)]
    ∧ modCtx.push regEx nameEx
      = .ok (.mk "Name" nameEx (initSlots [("id", .single), ("ctx", .single)])
          (some modCtx))
    ∧ regEx "Lambda" = none
    ∧ modCtx.push regEx (.node "Lambda" .nil) = .error (.keyError "Lambda") :=
  ⟨by decide,
    (push_registry_only regEx modCtx "Name" nameExFL).1 _ (by decide),
    by decide,
    (push_registry_only regEx modCtx "Lambda" .nil).2 (by decide)⟩

/-! ### Field-arity enforcement by `place` -/

def ValList.ofList : List PyVal → ValList
  | [] => .nil
  | v :: r => .cons v (ValList.ofList r)

/-- `place` called N times in sequence on the same field. -/
def placeSeq (c : StackSupportNode) (fn : String) : List PyVal → Except PyErr StackSupportNode
  | [] => .ok c
  | v :: r =>
    match c.place fn v with
    | .ok c2 => placeSeq c2 fn r
    | .error e => .error e

theorem placeSlots_single_free (slots : FieldList) (fn : String) (v : PyVal)
    (h : slotFind slots fn = some (.singleSlot (.lit .noneLit))) :
    placeSlots slots fn v = .ok (placeTSlots slots fn v)
    ∧ slotFind (placeTSlots slots fn v) fn = some (.singleSlot v) := by
  match slots with
  | .nil => simp [slotFind] at h
  | .scons n cur rest =>
    by_cases hn : n = fn
    · subst hn
      simp only [slotFind, if_pos rfl, if_true, Option.some.injEq, SlotView.singleSlot.injEq] at h
      subst h
      simp [placeSlots, placeTSlots, slotFind]
    · simp only [slotFind, if_neg hn] at h
      have ih := placeSlots_single_free rest fn v h
      simp [placeSlots, placeTSlots, slotFind, hn, ih.1, ih.2]
  | .lcons n vs rest =>
    by_cases hn : n = fn
    · subst hn
      simp [slotFind] at h
    · simp only [slotFind, if_neg hn] at h
      have ih := placeSlots_single_free rest fn v h
      simp [placeSlots, placeTSlots, slotFind, hn, ih.1, ih.2]

theorem placeSlots_single_taken (slots : FieldList) (fn : String) {v : PyVal}
    (h : slotFind slots fn = some (.singleSlot v)) (hv : v ≠ .lit .noneLit)
    (v2 : PyVal) :
    placeSlots slots fn v2
      = .error (.assertionError ("Attribute of name " ++ fn ++ " already set")) := by
  match slots with
  | .nil => simp [slotFind] at h
  | .scons n cur rest =>
    by_cases hn : n = fn
    · subst hn
      simp only [slotFind, if_pos rfl, if_true, Option.some.injEq, SlotView.singleSlot.injEq] at h
      subst h
      simp [placeSlots, hv]
    · simp only [slotFind, if_neg hn] at h
      have ih := placeSlots_single_taken rest fn h hv v2
      simp [placeSlots, hn, ih]
  | .lcons n vs rest =>
    by_cases hn : n = fn
    · subst hn
      simp [slotFind] at h
    · simp only [slotFind, if_neg hn] at h
      have ih := placeSlots_single_taken rest fn h hv v2
      simp [placeSlots, hn, ih]

theorem placeSlots_list_slot (slots : FieldList) (fn : String) (v : PyVal) {acc : ValList}
    (h : slotFind slots fn = some (.listSlot acc)) :
    placeSlots slots fn v = .ok (placeTSlots slots fn v)
    ∧ slotFind (placeTSlots slots fn v) fn = some (.listSlot (acc.append v)) := by
  match slots with
  | .nil => simp [slotFind] at h
  | .scons n cur rest =>
    by_cases hn : n = fn
    · subst hn
      simp [slotFind] at h
    · simp only [slotFind, if_neg hn] at h
      have ih := placeSlots_list_slot rest fn v h
      simp [placeSlots, placeTSlots, slotFind, hn, ih.1, ih.2]
  | .lcons n vs rest =>
    by_cases hn : n = fn
    · subst hn
      simp only [slotFind, if_pos rfl, if_true, Option.some.injEq, SlotView.listSlot.injEq] at h
      subst h
      simp [placeSlots, placeTSlots, slotFind]
    · simp only [slotFind, if_neg hn] at h
      have ih := placeSlots_list_slot rest fn v h
      simp [placeSlots, placeTSlots, slotFind, hn, ih.1, ih.2]

theorem slotFind_place (c : StackSupportNode) (fn : String) (v : PyVal) :
    slotFind (placeT c fn v).slots fn = slotFind (placeTSlots c.slots fn v) fn := rfl

theorem placeSeq_list (fn : String) (vs : List PyVal) : ∀ (c : StackSupportNode) (acc : ValList),
    slotFind c.slots fn = some (.listSlot acc) →
    ∃ cN, placeSeq c fn vs = .ok cN
      ∧ slotFind cN.slots fn = some (.listSlot (ValList.concat acc (ValList.ofList vs))) := by
  induction vs with
  | nil =>
    intro c acc h
    exact ⟨c, rfl, by rw [ValList.ofList, ValList.concat_nil]; exact h⟩
  | cons v r ih =>
    intro c acc h
    have hp := placeSlots_list_slot c.slots fn v h
    have hstep : c.place fn v = .ok (placeT c fn v) := by
      simp [StackSupportNode.place, hp.1, placeT]
    obtain ⟨cN, hseq, hfind⟩ := ih (placeT c fn v) (acc.append v)
      (by rw [slotFind_place]; exact hp.2)
    refine ⟨cN, ?_, ?_⟩
    · rw [placeSeq, hstep]
      exact hseq
    · rw [hfind, ValList.ofList, ValList.append_concat]

/-- C8.  Field-arity enforcement by `place`: on a context whose single
(scalar) attribute `fn` is still unset, the first `place` stores the
value; a second `place` on the now-set attribute raises the "already set"
assertion and the first value stays in place.  On a context whose list
attribute `fn` starts empty, placing N values in sequence succeeds and the
final attribute holds exactly those N values in placement order. -/
theorem place_arity_enforcement (c : StackSupportNode) (fn : String) :
    (∀ v1 v2 : PyVal, slotFind c.slots fn = some (.singleSlot (.lit .noneLit)) →
      v1 ≠ .lit .noneLit →
      c.place fn v1 = .ok (placeT c fn v1)
      ∧ slotFind (placeT c fn v1).slots fn = some (.singleSlot v1)
      ∧ (placeT c fn v1).place fn v2
          = .error (.assertionError ("Attribute of name " ++ fn ++ " already set")))
    ∧ (∀ vs : List PyVal, slotFind c.slots fn = some (.listSlot .nil) →
      ∃ cN, placeSeq c fn vs = .ok cN
        ∧ slotFind cN.slots fn = some (.listSlot (ValList.ofList vs))) := by
  constructor
  · intro v1 v2 hfree hv1
    have h1 := placeSlots_single_free c.slots fn v1 hfree
    refine ⟨by simp [StackSupportNode.place, h1.1, placeT], by rw [slotFind_place]; exact h1.2, ?_⟩
    have h2 := placeSlots_single_taken (placeT c fn v1).slots fn
      (by rw [slotFind_place]; exact h1.2) hv1 v2
    simp [StackSupportNode.place, h2]
  · intro vs hempty
    have := placeSeq_list fn vs c .nil hempty
    simpa [ValList.concat] using this

/-- Witness for C8 on a fresh `Assign` context: the scalar field `value`
accepts one node and rejects a second, keeping the first; the list field
`targets` accepts three values in order. -/
theorem place_arity_enforcement_witness :
    (slotFind (StackSupportNode.mk "Assign" assignEx
        (initSlots [("targets", .many), ("value", .single), ("type_comment", .single)])
        none).slots "value" = some (.singleSlot (.lit .noneLit)))
    ∧ (constEx ≠ PyVal.lit Lit.noneLit)
    ∧ ((StackSupportNode.mk "Assign" assignEx
        (initSlots [("targets", .many), ("value", .single), ("type_comment", .single)])
        none).place "value" constEx
        = .ok (placeT (StackSupportNode.mk "Assign" assignEx
            (initSlots [("targets", .many), ("value", .single), ("type_comment", .single)])
            none) "value" constEx))
    ∧ ((placeT (StackSupportNode.mk "Assign" assignEx
          (initSlots [("targets", .many), ("value", .single), ("type_comment", .single)])
          none) "value" constEx).place "value" nameEx
        = .error (.assertionError "Attribute of name value already set"))
    ∧ (∃ cN, placeSeq (StackSupportNode.mk "Assign" assignEx
          (initSlots [("targets", .many), ("value", .single), ("type_comment", .single)])
          none) "targets" [nameEx, constEx, storeEx] = .ok cN
        ∧ slotFind cN.slots "targets"
            = some (.listSlot (ValList.ofList [nameEx, constEx, storeEx]))) := by
  have h := place_arity_enforcement (StackSupportNode.mk "Assign" assignEx
    (initSlots [("targets", .many), ("value", .single), ("type_comment", .single)]) none)
    "value"
  have h2 := place_arity_enforcement (StackSupportNode.mk "Assign" assignEx
    (initSlots [("targets", .many), ("value", .single), ("type_comment", .single)]) none)
    "targets"
  obtain ⟨ha, hb, hc⟩ := h.1 constEx nameEx (by decide) (by decide)
  exact ⟨by decide, by decide, ha, hc, h2.2 [nameEx, constEx, storeEx] (by decide)⟩

theorem valuesBefore_of_split (items : List (String × PyVal)) (n : PyVal) :
    ∀ (pre : List PyVal) (post : List PyVal),
    items.map Prod.snd = pre ++ n :: post → n ∉ pre → valuesBefore items n = pre := by
  induction items with
  | nil =>
    intro pre post h _
    cases pre <;> simp at h
  | cons q rest ih =>
    intro pre post h hnin
    obtain ⟨fn, v⟩ := q
    cases pre with
    | nil =>
      simp only [List.map_cons, List.nil_append, List.cons.injEq] at h
      rw [valuesBefore, if_pos h.1]
    | cons w pre2 =>
      simp only [List.map_cons, List.cons_append, List.cons.injEq] at h
      simp only [List.mem_cons, not_or] at hnin
      rw [valuesBefore, if_neg (by rw [h.1]; exact fun hc => hnin.1 hc.symm)]
      rw [ih pre2 post h.2 hnin.2, h.1]

/-- C9.  Reverse-iterator ordering: for a context for node `n` whose
parent context `p` mirrors a node whose child values are `s1` (earlier),
`s2` (later), then `n`, `get_reverse_iterator` yields `(p, s2)` first,
then `(p, s1)`, and after exhausting that level continues with the yields
of `p`'s own reverse iterator — nearer positions always first. -/
theorem reverse_iterator_elder_siblings (p : StackSupportNode) (tc : String)
    (slots : FieldList) (n s1 s2 : PyVal) (post : List PyVal)
    (tail : List (StackSupportNode × PyVal))
    (hpn : ¬(p.node = .lit .noneLit))
    (hvals : (childIterV p.node).map Prod.snd = [s1, s2] ++ n :: post)
    (hn1 : ¬(n = s1)) (hn2 : ¬(n = s2))
    (htail : p.get_reverse_iterator = .ok tail) :
    (StackSupportNode.mk tc n slots (some p)).get_reverse_iterator
      = .ok ([(p, s2), (p, s1)] ++ tail) := by
  rw [StackSupportNode.get_reverse_iterator, if_neg hpn, htail]
  rw [valuesBefore_of_split (childIterV p.node) n [s1, s2] post hvals
    (by simp [List.mem_cons]; exact ⟨hn1, hn2⟩)]
  rfl

def sib1 : PyVal := .node "Const" (.scons "value" (.lit (.int 1)) (.scons "kind" (.lit .noneLit) .nil))

def sib2 : PyVal := .node "Const" (.scons "value" (.lit (.int 2)) (.scons "kind" (.lit .noneLit) .nil))

def sibN : PyVal := .node "Const" (.scons "value" (.lit (.int 3)) (.scons "kind" (.lit .noneLit) .nil))

def parEx : StackSupportNode :=
  .mk "Module" (.node "Module" (.lcons "body" (.cons sib1 (.cons sib2 (.cons sibN .nil)))
      (.lcons "type_ignores" .nil .nil)))
    (initSlots [("body", .many), ("type_ignores", .many)]) (some .sentinel)

/-- Witness for C9: under a `Module` parent with children `sib1, sib2,
sibN`, the reverse iterator of `sibN`'s context yields `(parent, sib2)`,
`(parent, sib1)` and then the parent's own (empty) reverse yields. -/
theorem reverse_iterator_elder_siblings_witness :
    (StackSupportNode.mk "Const" sibN (initSlots [("value", .single), ("kind", .single)])
        (some parEx)).get_reverse_iterator
      = .ok [(parEx, sib2), (parEx, sib1)] :=
  reverse_iterator_elder_siblings parEx "Const"
    (initSlots [("value", .single), ("kind", .single)]) sibN sib1 sib2 []
    [] (by decide) (by decide) (by decide) (by decide) (by decide)

/-- C10.  On a freshly pushed builder context (no `place` calls yet) whose
original node holds the target child inside a list field, `get_pos` finds
the field name on the original node's child iterator but then indexes the
context's own accumulation attribute, which is still the empty list, so
`list.index` raises `ValueError` instead of returning the
`(field_name, index)` pair. -/
theorem get_pos_fresh_context_list_error (tc tn : String) (nfl : FieldList)
    (sch : Schema) (p : Option StackSupportNode) (target : PyVal) (fn : String)
    (hfind : (childIterFL nfl).find? (fun q => q.2 = target) = some (fn, target))
    (hslot : slotFind (initSlots sch) fn = some (.listSlot .nil)) :
    (StackSupportNode.mk tc (.node tn nfl) (initSlots sch) p).get_pos target
      = .error (.valueError "is not in list") := by
  rw [StackSupportNode.get_pos]
  simp only [StackSupportNode.node, StackSupportNode.slots, childIterV]
  rw [hfind]
  show (match slotFind (initSlots sch) fn with
    | none => Except.error (PyErr.attributeError fn)
    | some (SlotView.singleSlot _) => Except.ok (fn, none)
    | some (SlotView.listSlot vs) =>
      match indexOfVL vs target with
      | none => Except.error (PyErr.valueError "is not in list")
      | some i => Except.ok (fn, some i))
    = Except.error (PyErr.valueError "is not in list")
  rw [hslot]
  rfl

/-- Witness for C10: the fresh `Module` context for Scenario A's tree
holds `assignEx` inside the list field `body` of its original node, yet
`get_pos` raises `ValueError`. -/
theorem get_pos_fresh_context_list_error_witness :
    ((childIterFL moduleExFL).find? (fun q => q.2 = assignEx) = some ("body", assignEx))
    ∧ (slotFind (initSlots [("body", Arity.many), ("type_ignores", Arity.many)]) "body"
        = some (.listSlot .nil))
    ∧ ((StackSupportNode.mk "Module" (.node "Module" moduleExFL)
        (initSlots [("body", Arity.many), ("type_ignores", Arity.many)]) (some .sentinel)).get_pos
          assignEx = .error (.valueError "is not in list")) :=
  ⟨by decide, by decide,
    get_pos_fresh_context_list_error "Module" "Module" moduleExFL
      [("body", Arity.many), ("type_ignores", Arity.many)] (some .sentinel) assignEx "body"
      (by decide) (by decide)⟩

/-!
### The action log (`construction_database.py`)

Entries of the doubly linked action log.  The chain is modelled first to
last as a list; `id` models Python object identity (used by the `is`
comparisons and the `_created` tags).  Astroid nodes are modelled with
the attributes the actions read and write: the class name, the declared
fields (with an is-list flag, for `isinstance(getattr(...), list)`), and
the `_created` identity tag; field values are not tracked, because every
execution path that would reach them raises beforehand.
-/

inductive ActionKind where
  | start
  | createTreenode (field_name : String) (node_type : String)
  | commitTreenode
  | emplaceLiteral (field_name : String) (literal : Lit)
deriving DecidableEq, Repr

structure BuildNode where
  id : Nat
  kind : ActionKind
deriving DecidableEq, Repr

/-- `tree_descent`: `True` only on `CreateTreenodeAction`. -/
def tree_descent : ActionKind → Bool
  | .createTreenode _ _ => true
  | _ => false

/-- `tree_ascend`: `True` only on `CommitTreeBuildNode`. -/
def tree_ascend : ActionKind → Bool
  | .commitTreenode => true
  | _ => false

structure AstrNode where
  typeName : String
  fields : List (String × Bool)
  created : Option Nat
deriving DecidableEq, Repr

/-- The `context` dataclass of `construction_database.py`. -/
structure BuildContext where
  node : Option AstrNode
  depth : Int
  is_tree_create : Bool
  field_name : Option String
deriving DecidableEq, Repr

/-- `DoubleLinkedList.__iter__`: `yield self`, then evaluate `node.next` —
an attribute neither `DoubleLinkedList` nor `BuildNode` defines (the links
are called `child` and `parent`), so resuming the generator raises
`AttributeError("next")`.  The iteration therefore produces exactly one
entry and then an error, whatever the chain holds. -/
def dllIter (self : BuildNode) : List BuildNode × Option PyErr :=
  ([self], some (.attributeError "next"))

/-- The `action` method of the entry's class.  `BuildNode.action` itself
raises `NotImplementedError`; `CreateTreenodeAction.action` reads
`getattr(node, field_name)` (AttributeError when `node` is `None` or the
field is missing), tags the *incoming* node — the parent — with
`_created = self`, pushes a context holding that tagged parent, and
returns a fresh node of the demanded class; `CommitTreeBuildNode.action`
pops the context stack (IndexError when empty), asserts `is_tree_create`,
and returns the recorded parent; `EmplaceLiteral.action` places the
literal onto the passed node's field and returns it. -/
def actionFn (e : BuildNode) (node : Option AstrNode) (stack : List BuildContext) :
    Except PyErr (Option AstrNode × List BuildContext) :=
  match e.kind with
  | .start => .error .notImplementedError
  | .createTreenode fn ty =>
    match node with
    | none => .error (.attributeError fn)
    | some nd =>
      match nd.fields.lookup fn with
      | none => .error (.attributeError fn)
      | some _ =>
        let nd2 : AstrNode := { nd with created := some e.id }
        let depth : Int := match stack.getLast? with
          | some top => top.depth + 1
          | none => 0
        let ctx : BuildContext := ⟨some nd2, depth, true, some fn⟩
        .ok (some ⟨ty, [], none⟩, stack ++ [ctx])
  | .commitTreenode =>
    match stack.getLast? with
    | none => .error (.indexError "pop from empty list")
    | some ctx =>
      if ctx.is_tree_create then .ok (ctx.node, stack.dropLast)
      else .error (.assertionError "Did not use all context first")
  | .emplaceLiteral fn _ =>
    match node with
    | none => .error (.attributeError fn)
    | some nd =>
      match nd.fields.lookup fn with
      | none => .error (.attributeError fn)
      | some _ => .ok (some nd, stack)

/-- The body of `execute`'s `for action_node in self:` loop.  The yielded
entry only adjusts `depth` through its class flags; the action invoked is
always `self.action` — the receiver's own method, not the yielded
entry's.  When `depth <= 0` after the first action the current node is
returned; otherwise the loop asks the iterator for the next entry and
inherits its `AttributeError`. -/
def executeLoop (self : BuildNode) (depth : Int) (ast_node : Option AstrNode)
    (stack : List BuildContext) :
    List BuildNode → Option PyErr → Except PyErr (Option AstrNode)
  | [], some e => .error e
  | [], none => .ok none
  | action_node :: rest, iterErr =>
    let depth2 := depth + (if tree_descent action_node.kind then 1 else 0)
      - (if tree_ascend action_node.kind then 1 else 0)
    match actionFn self ast_node stack with
    | .error er => .error er
    | .ok (node2, stack2) =>
      if depth2 ≤ 0 then .ok node2
      else executeLoop self depth2 node2 stack2 rest iterErr

/-- `BuildNode.execute()`: "Runs all the nodes. Returns the result." -/
def BuildNode.execute (self : BuildNode) : Except PyErr (Option AstrNode) :=
  let (yields, iterErr) := dllIter self
  executeLoop self 0 none [] yields iterErr

/-- The body of `edit`'s `for action_node in start:` loop, comparing each
yielded entry's identity with the node's `_created` tag. -/
def editLoop (node : AstrNode) :
    List BuildNode → Option PyErr → Except PyErr (Option BuildNode)
  | [], some e => .error e
  | [], none => .ok none
  | e :: rest, iterErr =>
    if node.created = some e.id then .ok (some e)
    else editLoop node rest iterErr

/-- `BuildNode.edit(node)`: `start = self.first`, assert the node carries
a `_created` tag, then scan the chain for the entry that is the tag.
`first` is modelled as already resolved (the chain's first entry). -/
def BuildNode.edit (first : BuildNode) (node : AstrNode) :
    Except PyErr (Option BuildNode) :=
  if node.created = none then .error (.assertionError "hasattr(node, _created)")
  else
    let (yields, iterErr) := dllIter first
    editLoop node yields iterErr

/-- The `child` setter run with `value = None` (`entry.child = None`): when
the entry has a child, `self.child is not value` holds, the old child's
back-link is cleared, `self._child = None` is stored, and then
`self._child.parent = self` dereferences `None`, raising
`AttributeError("parent")`.  With no child the setter is a no-op.  The
chain is the list of entries first to last; an entry's child is its
successor there. -/
def childSetNone (chain : List BuildNode) (e : BuildNode) : Except PyErr Unit :=
  match chain.dropWhile (fun q => q ≠ e) with
  | _ :: _ :: _ => .error (.attributeError "parent")
  | _ => .ok ()

/-- `BuildNode.revert(node)`: `edit(node)`, sever with `child = None`,
return the truncated chain's first entry. -/
def BuildNode.revert (chain : List BuildNode) (node : AstrNode) :
    Except PyErr BuildNode :=
  match chain.head? with
  | none => .error (.attributeError "first")
  | some first =>
    match BuildNode.edit first node with
    | .error e => .error e
    | .ok none => .error (.attributeError "child")
    | .ok (some dump) =>
      match childSetNone chain dump with
      | .error e => .error e
      | .ok () => .ok first

/-- The spec's Scenario C chain: a root `BuildNode` followed by
`create("body", Assign)`, `create("target", Name)`, `emplace("id", "x")`,
`commit()`, `create("value", Const)`, `emplace("value", 3)`, `commit()`,
`commit()`. -/
def scenarioC : List BuildNode :=
  [⟨0, .start⟩,
   ⟨1, .createTreenode "body" "Assign"⟩,
   ⟨2, .createTreenode "target" "Name"⟩,
   ⟨3, .emplaceLiteral "id" (.str "x")⟩,
   ⟨4, .commitTreenode⟩,
   ⟨5, .createTreenode "value" "Const"⟩,
   ⟨6, .emplaceLiteral "value" (.int 3)⟩,
   ⟨7, .commitTreenode⟩,
   ⟨8, .commitTreenode⟩]

/-- C3.  `execute()` does not replay the chain: invoked on the root
`BuildNode` of Scenario C's chain, the first loop iteration calls
`self.action` — the abstract `BuildNode.action` — which raises
`NotImplementedError` before any entry's effect is applied; even if it
did not, the chain iteration itself reads the nonexistent `next`
attribute and raises `AttributeError` after the first entry. -/
theorem execute_scenarioC_raises :
    scenarioC.head? = some ⟨0, ActionKind.start⟩
    ∧ BuildNode.execute ⟨0, ActionKind.start⟩ = .error PyErr.notImplementedError
    ∧ (dllIter ⟨0, ActionKind.start⟩).2 = some (.attributeError "next") := by
  refine ⟨rfl, rfl, rfl⟩

/-- C6.  `edit(node)` cannot find the creating entry: the create action
tags the *incoming parent* node with `_created`, not the node it creates
(which carries no tag), and the chain scan raises `AttributeError("next")`
after comparing only the first entry; a node with no tag fails the
`hasattr` assertion instead. -/
theorem edit_tagging_and_iteration_broken :
    actionFn ⟨1, .createTreenode "body" "Assign"⟩
        (some ⟨"Module", [("body", true)], none⟩) []
      = .ok (some ⟨"Assign", [], none⟩,
          [⟨some ⟨"Module", [("body", true)], some 1⟩, 0, true, some "body"⟩])
    ∧ BuildNode.edit ⟨0, .start⟩ ⟨"Name", [], some 1⟩ = .error (.attributeError "next")
    ∧ BuildNode.edit ⟨0, .start⟩ ⟨"Name", [], none⟩
        = .error (.assertionError "hasattr(node, _created)") := by
  refine ⟨rfl, rfl, rfl⟩

/-- C7.  `revert(node)` neither severs nor returns: the `edit` call it
starts with raises `AttributeError("next")` while scanning the chain,
and even given the entry, `entry.child = None` itself raises
`AttributeError("parent")` in the child setter, which stores `None` into
`_child` and then assigns `self._child.parent`. -/
theorem revert_scenarioC_raises :
    BuildNode.revert scenarioC ⟨"Name", [], some 2⟩ = .error (.attributeError "next")
    ∧ childSetNone scenarioC ⟨2, .createTreenode "target" "Name"⟩
        = .error (.attributeError "parent") := by
  refine ⟨rfl, by decide⟩
